import Mathlib

/-!
# Trading dashboard: derived views over the trade-record log

A shallow embedding of the derivations of the trading dashboard:

* `services/trading-dashboard/server.js`: the portfolio summary, the portfolio
  history and the current positions, each computed from the flat list of trade
  records returned by the upstream server;
* `services/trading-dashboard/src/pages/Trading.js`: `processedTrades`, the
  buy / sell / hold classification, and the symbol icons of the rows of its table;
* `services/trading-dashboard/src/context/TradingContext.js`: `tradingReducer`;
* `services/public/app.js`: the batches `latest` and `lastTrades` of the legacy
  dashboard.

Modelling conventions.

* Numbers are exact rationals: the rounding of IEEE doubles is not modelled. A
  value computed by a division or by a product with a missing operand is a
  `JsNum`, which keeps the non-finite results of JavaScript apart.
* A numeric field of a record is a `JsVal`: a number, `null`, or `undefined`
  (the key is absent).
* `transaction_id` is an integer, so `parseInt` returns it unchanged, and the
  property key it is coerced to is an array index exactly when it lies in
  `0 .. 2^32 - 2`.
* `Array.prototype.sort` with a comparator is a stable sort; it is modelled by
  a stable insertion sort, and an in-place sort by returning the new contents
  of the array next to the result.
-/

namespace TradingDashboard

/-! ## JavaScript values -/

/-- A field of a JSON record where a number is expected. -/
inductive JsVal where
  | undefined
  | null
  | num (q : ℚ)
deriving DecidableEq

/-- A JavaScript number: finite, infinite or NaN. -/
inductive JsNum where
  | fin (q : ℚ)
  | posInf
  | negInf
  | nan
deriving DecidableEq

/-- The expression `x || 0` for a numeric field: `undefined`, `null` and `0` give `0`. -/
def orZero : JsVal → ℚ
  | .num q => q
  | _ => 0

/-- The test `x > 0` for a numeric field: `undefined` (NaN) and `null` (0) fail it. -/
def gtZero : JsVal → Bool
  | .num q => decide (q > 0)
  | _ => false

/-- The abstract operation ToNumber on a numeric field. -/
def toNumber : JsVal → JsNum
  | .undefined => .nan
  | .null => .fin 0
  | .num q => .fin q

/-- The infinity with the sign of `s`, NaN when `s` is zero. -/
def infOfSign (s : ℚ) : JsNum :=
  if s > 0 then .posInf else if s < 0 then .negInf else .nan

/-- The product `x * y` of two JavaScript numbers. -/
def JsNum.mul : JsNum → JsNum → JsNum
  | .fin a, .fin b => .fin (a * b)
  | .fin a, .posInf => infOfSign a
  | .fin a, .negInf => infOfSign (-a)
  | .posInf, .fin b => infOfSign b
  | .negInf, .fin b => infOfSign (-b)
  | .posInf, .posInf => .posInf
  | .negInf, .negInf => .posInf
  | .posInf, .negInf => .negInf
  | .negInf, .posInf => .negInf
  | .nan, _ => .nan
  | _, .nan => .nan

/-- The quotient `a / b` of two finite numbers: non-finite when `b` is zero. -/
def jsDiv (a b : ℚ) : JsNum :=
  if b = 0 then infOfSign a else .fin (a / b)

/-- The function `parseInt` on an integer identifier. -/
def parseInt (n : Int) : Int := n

/-- The method `Array.prototype.sort` with comparator `cmp`: a stable sort that puts
`a` before `b` when `cmp a b` is negative and keeps their order when it is zero. -/
def arraySort {α : Type} (cmp : α → α → Int) (l : List α) : List α :=
  l.insertionSort (fun a b => cmp a b ≤ 0)

/-! ## Trade records -/

/-- One record of the trade log, as the upstream server returns it. -/
structure Trade where
  transaction_id : Int
  symbol : Option String
  allocation : ℚ
  shares_held : JsVal
  current_price : JsVal
  portfolio_value : JsVal
  final_cash : JsVal
  date : String
  time : String
  sentiment : Option String
deriving DecidableEq

/-! ## Portfolio summary (`GET /api/portfolio-summary`) -/

/-- The `data` object of the portfolio-summary response. -/
structure Summary where
  totalValue : ℚ
  cash : ℚ
  dayChange : ℚ
  dayChangePercent : JsNum
  totalReturn : ℚ
  totalReturnPercent : JsNum
deriving DecidableEq

/-- The callback of `trades.reduce`: keep `latest` unless `trade` has a larger identifier. -/
def pickLatest (latest trade : Trade) : Trade :=
  if parseInt trade.transaction_id > parseInt latest.transaction_id then trade else latest

/-- The record `latestTx`: `trades.reduce` without an initial value starts from the
first record and folds the callback over the others. -/
def latestTx (first : Trade) (rest : List Trade) : Trade :=
  rest.foldl pickLatest first

/-- The array `sortedTrades`: the records in descending identifier order. -/
def sortedTrades (trades : List Trade) : List Trade :=
  arraySort (fun a b => parseInt b.transaction_id - parseInt a.transaction_id) trades

/-- The value `prevValue`: the portfolio value of `sortedTrades[1]` when the array has
more than one element, else `portfolioValue`. -/
def prevValue (sorted : List Trade) (portfolioValue : ℚ) : ℚ :=
  match sorted with
  | _ :: second :: _ => orZero second.portfolio_value
  | _ => portfolioValue

/-- The handler of `GET /api/portfolio-summary` on the fetched record list: the summary
it responds with, and the contents of the array `trades` when it is done (`trades.sort`
sorts the array in place). -/
def portfolioSummary (trades : List Trade) : Summary × List Trade :=
  match trades with
  | [] =>
    ({ totalValue := 0, cash := 0, dayChange := 0, dayChangePercent := .fin 0,
       totalReturn := 0, totalReturnPercent := .fin 0 }, [])
  | first :: rest =>
    let latest := latestTx first rest
    let portfolioValue := orZero latest.portfolio_value
    let cash := orZero latest.final_cash
    let sorted := sortedTrades (first :: rest)
    let prev := prevValue sorted portfolioValue
    let dayChange := portfolioValue - prev
    let dayChangePercent :=
      if prev > 0 then (jsDiv dayChange prev).mul (.fin 100) else .fin 0
    ({ totalValue := portfolioValue, cash := cash, dayChange := dayChange,
       dayChangePercent := dayChangePercent,
       totalReturn := portfolioValue - 10000,
       totalReturnPercent := (jsDiv (portfolioValue - 10000) 10000).mul (.fin 100) },
     sorted)

/-! ## JavaScript objects keyed by transaction identifier -/

/-- The lookup `o[k]` in an object whose entries are listed in creation order. -/
def getKey {β : Type} (o : List (Int × β)) (k : Int) : Option β :=
  (o.find? (fun e => e.1 = k)).map (fun e => e.2)

/-- Whether the property key of the identifier `k` is an array index. -/
def isArrayIndex (k : Int) : Bool :=
  decide (0 ≤ k ∧ k ≤ 4294967294)

/-- The own properties of an object in enumeration order: the array-index keys in
ascending numeric order, then the other keys in creation order. -/
def ownEntries {β : Type} (o : List (Int × β)) : List (Int × β) :=
  (o.filter (fun e => isArrayIndex e.1)).insertionSort (fun a b => a.1 ≤ b.1)
    ++ o.filter (fun e => !isArrayIndex e.1)

/-- The list `Object.values(o)`. -/
def objectValues {β : Type} (o : List (Int × β)) : List β :=
  (ownEntries o).map (fun e => e.2)

/-- The list `Object.keys(o)`, each key read back as the integer it denotes. -/
def objectKeys {β : Type} (o : List (Int × β)) : List Int :=
  (ownEntries o).map (fun e => e.1)

/-! ## Portfolio history (`GET /api/portfolio-history`) -/

/-- The object stored in `txGroups` for one transaction. -/
structure TxGroup where
  transaction_id : Int
  date : String
  time : String
  portfolio_value : ℚ
  final_cash : ℚ
deriving DecidableEq

/-- One point of the history series. -/
structure HistoryPoint where
  timestamp : String
  value : ℚ
  cash : ℚ
deriving DecidableEq

/-- The body of `trades.forEach`: the first record of a transaction creates its group. -/
def addToHistoryGroups (txGroups : List (Int × TxGroup)) (trade : Trade) :
    List (Int × TxGroup) :=
  let txId := trade.transaction_id
  if (getKey txGroups txId).isSome then txGroups
  else txGroups ++ [(txId,
    { transaction_id := txId, date := trade.date, time := trade.time,
      portfolio_value := orZero trade.portfolio_value,
      final_cash := orZero trade.final_cash })]

/-- The object `txGroups` of the history handler after the `forEach`. -/
def historyGroups (trades : List Trade) : List (Int × TxGroup) :=
  trades.foldl addToHistoryGroups []

/-- The groups have pairwise distinct keys and each group carries its key as identifier. -/
def GroupsOk (txGroups : List (Int × TxGroup)) : Prop :=
  (txGroups.map (fun e => e.1)).Nodup ∧ ∀ e ∈ txGroups, e.2.transaction_id = e.1

/-- The groups in ascending identifier order: `Object.values(txGroups).sort(...)`. -/
def sortedHistoryGroups (trades : List Trade) : List TxGroup :=
  arraySort (fun a b => parseInt a.transaction_id - parseInt b.transaction_id)
    (objectValues (historyGroups trades))

/-- The callback of the final `map` of the history handler. -/
def toHistoryPoint (tx : TxGroup) : HistoryPoint :=
  { timestamp := tx.date ++ " " ++ tx.time, value := tx.portfolio_value, cash := tx.final_cash }

/-- The handler of `GET /api/portfolio-history` on the fetched record list. -/
def portfolioHistory (trades : List Trade) : List HistoryPoint :=
  (sortedHistoryGroups trades).map toHistoryPoint

/-! ## Current positions (`GET /api/current-positions`) -/

/-- One entry of the current-positions response. -/
structure Position where
  symbol : Option String
  shares : JsVal
  currentPrice : JsVal
  allocation : ℚ
  value : JsNum
  sentiment : String
deriving DecidableEq

/-- The call `Math.max(...xs)`: `none` stands for `-Infinity`, the result on no argument. -/
def mathMax (xs : List Int) : Option Int :=
  xs.foldl (fun acc x =>
    match acc with
    | none => some x
    | some m => some (max m x)) none

/-- The expression `trade.sentiment || 'neutral'`: an absent and an empty string are falsy. -/
def sentimentOrNeutral : Option String → String
  | some s => if s = "" then "neutral" else s
  | none => "neutral"

/-- The callback of the `map` of the positions handler. -/
def toPosition (trade : Trade) : Position :=
  { symbol := trade.symbol,
    shares := trade.shares_held,
    currentPrice := trade.current_price,
    allocation := trade.allocation * 100,
    value := (toNumber trade.shares_held).mul (toNumber trade.current_price),
    sentiment := sentimentOrNeutral trade.sentiment }

/-- The handler of `GET /api/current-positions` on the fetched record list. -/
def currentPositions (trades : List Trade) : List Position :=
  if trades.length = 0 then []
  else
    let latestTxId := mathMax (trades.map (fun t => parseInt t.transaction_id))
    (trades.filter (fun t =>
      decide (some (parseInt t.transaction_id) = latestTxId) && gtZero t.shares_held)).map
      toPosition

/-! ## Action classification (`processedTrades` of the Trading page) -/

/-- The label given to a processed trade. -/
inductive TradeAction where
  | buy
  | sell
  | hold
deriving DecidableEq

/-- A record of `processed`: the trade with its `action` and `allocChange`. -/
structure ProcessedTrade where
  trade : Trade
  action : TradeAction
  allocChange : ℚ
deriving DecidableEq

/-- The body of the first `trades.forEach`: push the record on the array of its
transaction, creating the array on first use. -/
def pushTrade (txGroups : List (Int × List Trade)) (trade : Trade) :
    List (Int × List Trade) :=
  let txId := trade.transaction_id
  if (getKey txGroups txId).isSome then
    txGroups.map (fun e => if e.1 = txId then (e.1, e.2 ++ [trade]) else e)
  else txGroups ++ [(txId, [trade])]

/-- The object `txGroups` of `processedTrades` after the first `forEach`. -/
def tradeGroups (trades : List Trade) : List (Int × List Trade) :=
  trades.foldl pushTrade []

/-- The property key a symbol is coerced to: an absent symbol gives `"undefined"`. -/
def symbolKey : Option String → String
  | some s => s
  | none => "undefined"

/-- The object `prevMap`: each record of `prevTx` writes its allocation under its symbol,
a later record overwriting an earlier one. Symbols are assumed not to name a property
that every object inherits. -/
def prevMapOf (prevTx : List Trade) : String → Option ℚ :=
  prevTx.foldl (fun m trade => Function.update m (symbolKey trade.symbol) (some trade.allocation))
    (fun _ => none)

/-- The expression `prevMap[trade.symbol] || 0`. -/
def prevAllocOf (prevMap : String → Option ℚ) (symbol : Option String) : ℚ :=
  (prevMap (symbolKey symbol)).getD 0

/-- The label for an allocation difference, with the fixed band of 0.01. -/
def actionOf (allocDiff : ℚ) : TradeAction :=
  if allocDiff > 1 / 100 then .buy
  else if allocDiff < -(1 / 100) then .sell
  else .hold

/-- The branch `if (prevTx)`: each record of `currentTx` is compared with `prevMap`. -/
def compareWithPrev (prevTx currentTx : List Trade) : List ProcessedTrade :=
  let prevMap := prevMapOf prevTx
  currentTx.map (fun trade =>
    let prevAlloc := prevAllocOf prevMap trade.symbol
    let currentAlloc := trade.allocation
    let allocDiff := currentAlloc - prevAlloc
    { trade := trade, action := actionOf allocDiff, allocChange := allocDiff })

/-- The branch `else`: every record of the first transaction processed is a buy. -/
def allBuys (currentTx : List Trade) : List ProcessedTrade :=
  currentTx.map (fun trade =>
    { trade := trade, action := .buy, allocChange := trade.allocation })

/-- The loop `for (const txId of sortedTxIds)`, from the state `prevTx`, `processed`. -/
def processLoop (txGroups : List (Int × List Trade)) :
    Option (List Trade) → List ProcessedTrade → List Int → List ProcessedTrade
  | _, processed, [] => processed
  | prevTx, processed, txId :: rest =>
    let currentTx := (getKey txGroups txId).getD []
    let emitted :=
      match prevTx with
      | some prev => compareWithPrev prev currentTx
      | none => allBuys currentTx
    processLoop txGroups (some currentTx) (processed ++ emitted) rest

/-- The memoised value `processedTrades` for the record list `trades`. -/
def processedTrades (trades : List Trade) : List ProcessedTrade :=
  let txGroups := tradeGroups trades
  let sortedTxIds := arraySort (fun a b => parseInt b - parseInt a) (objectKeys txGroups)
  processLoop txGroups none [] sortedTxIds

/-! ## The reducer of the trading context -/

/-- The state of the trading context. -/
structure State where
  portfolio : Summary
  positions : List Position
  trades : List Trade
  portfolioHistory : List HistoryPoint
  loading : Bool
  error : Option String
  connected : Bool
deriving DecidableEq

/-- The payload of `UPDATE_REAL_TIME`, the data of a `portfolio-update` event: `undefined`,
`null`, or an object whose `trades` is an array (`some`) or is absent or null (`none`). -/
inductive RealTimePayload where
  | undefined
  | null
  | obj (trades : Option (List Trade))
deriving DecidableEq

/-- The actions the reducer is dispatched with; `other` is a type it does not know. -/
inductive Action where
  | SET_LOADING (payload : Bool)
  | SET_ERROR (payload : Option String)
  | SET_PORTFOLIO (payload : Summary)
  | SET_POSITIONS (payload : List Position)
  | SET_TRADES (payload : List Trade)
  | SET_PORTFOLIO_HISTORY (payload : List HistoryPoint)
  | SET_CONNECTED (payload : Bool)
  | UPDATE_REAL_TIME (payload : RealTimePayload)
  | other (type : String)

open Action

/-- The function `tradingReducer`. Reading `action.payload.trades` from an `undefined` or
`null` payload throws a `TypeError`; an array, empty or not, is truthy. -/
def tradingReducer (state : State) : Action → Except String State
  | SET_LOADING payload => .ok { state with loading := payload }
  | SET_ERROR payload => .ok { state with error := payload, loading := false }
  | SET_PORTFOLIO payload => .ok { state with portfolio := payload }
  | SET_POSITIONS payload => .ok { state with positions := payload }
  | SET_TRADES payload => .ok { state with trades := payload }
  | SET_PORTFOLIO_HISTORY payload => .ok { state with portfolioHistory := payload }
  | SET_CONNECTED payload => .ok { state with connected := payload }
  | UPDATE_REAL_TIME .undefined => .error "TypeError"
  | UPDATE_REAL_TIME .null => .error "TypeError"
  | UPDATE_REAL_TIME (.obj (some trades)) => .ok { state with trades := trades }
  | UPDATE_REAL_TIME (.obj none) => .ok { state with trades := state.trades }
  | other _ => .ok state

/-! ## Sample records -/

/-- A record with the given identifier, symbol, allocation and portfolio value. -/
def mkTrade (id : Int) (sym : String) (alloc value : ℚ) : Trade :=
  { transaction_id := id, symbol := some sym, allocation := alloc,
    shares_held := .num 1, current_price := .num 1, portfolio_value := .num value,
    final_cash := .num 0, date := "2024-01-01", time := "10:00:00", sentiment := none }

/-- The initial state of the trading context. -/
def initialState : State :=
  { portfolio :=
      { totalValue := 0, cash := 0, dayChange := 0, dayChangePercent := .fin 0,
        totalReturn := 0, totalReturnPercent := .fin 0 },
    positions := [], trades := [], portfolioHistory := [], loading := false, error := none,
    connected := false }

/-- Two records of transaction 2 (value 11000) before one of transaction 1 (value 10000). -/
def logLatestOfTwo : List Trade :=
  [mkTrade 2 "AAPL" (1 / 2) 11000, mkTrade 2 "BTC" (1 / 2) 11000, mkTrade 1 "AAPL" 1 10000]

/-- Transaction 1 (value 10000) before transaction 2 (value 11000), one record each. -/
def logAscending : List Trade :=
  [mkTrade 1 "AAPL" (1 / 10) 10000, mkTrade 2 "AAPL" (3 / 10) 11000]

/-- Scenario B: transaction 1 holds AAPL at 0.3, transaction 2 holds AAPL at 0.1. -/
def logScenarioB : List Trade :=
  [mkTrade 1 "AAPL" (3 / 10) 10000, mkTrade 2 "AAPL" (1 / 10) 10000]

/-- One transaction of two records that share the portfolio value 10000. -/
def logSingleBatch : List Trade :=
  [mkTrade 1 "AAPL" (1 / 2) 10000, mkTrade 1 "BTC" (1 / 2) 10000]

/-- Transaction 2 (value 11000) after transaction 1, whose portfolio value is 0. -/
def logPrevZero : List Trade :=
  [mkTrade 1 "AAPL" 1 0, mkTrade 2 "AAPL" 1 11000]

/-- A state whose record log holds one record. -/
def stateOneTrade : State :=
  { initialState with trades := [mkTrade 1 "AAPL" (1 / 2) 10000] }

/-- The log `logAscending` with its two records exchanged. -/
def logDescending : List Trade :=
  [mkTrade 2 "AAPL" (3 / 10) 11000, mkTrade 1 "AAPL" (1 / 10) 10000]

/-- The records of transaction `i`, in input order. -/
def batchOf (trades : List Trade) (i : Int) : List Trade :=
  trades.filter (fun t => decide (t.transaction_id = i))

/-- The array `sortedTxIds` of `processedTrades`: the keys of `txGroups` in descending
order. -/
def sortedTxIds (trades : List Trade) : List Int :=
  arraySort (fun a b => parseInt b - parseInt a) (objectKeys (tradeGroups trades))

/-- Scenario A: one transaction holding AAPL at 0.5, value 10000. -/
def logScenarioA : List Trade :=
  [mkTrade 1 "AAPL" (1 / 2) 10000]

/-- AAPL held at 0.3 in transactions 1 and 2, then at 0.5 in transaction 3. -/
def logUnchangedThenRaised : List Trade :=
  [mkTrade 1 "AAPL" (3 / 10) 10000, mkTrade 2 "AAPL" (3 / 10) 10000,
   mkTrade 3 "AAPL" (1 / 2) 10000]

/-- A record with one share whose `current_price` is `null`. -/
def tradeNullPrice : Trade :=
  { mkTrade 1 "AAPL" 1 10000 with current_price := .null }

/-- A record with one share whose `current_price` key is absent. -/
def tradeNoPrice : Trade :=
  { mkTrade 1 "AAPL" 1 10000 with current_price := .undefined }

/-- The allocation of the last record of `batch` that carries the symbol `symbol`, and 0
when the batch holds no such record. -/
def lastAllocOf (batch : List Trade) (symbol : Option String) : ℚ :=
  match batch.reverse.find? (fun r => decide (symbolKey r.symbol = symbolKey symbol)) with
  | some r => r.allocation
  | none => 0

/-- The classification spelled out over a list of identifiers: the batch of the first
identifier is all buys, and the batch of each later identifier is compared with the batch
of the identifier just before it in the list. -/
def classifyInOrder (batch : Int → List Trade) (ids : List Int) : List ProcessedTrade :=
  (match ids with
    | [] => []
    | i :: _ => allBuys (batch i))
    ++ (ids.zip ids.tail).flatMap
        (fun ji => compareWithPrev (batch ji.1) (batch ji.2))

/-- A record of transaction 1 with one share, allocation 0.5 and no symbol. -/
def tradeNoSymbol : Trade :=
  { mkTrade 1 "" (1 / 2) 10000 with symbol := none }

/-- One transaction: a record of AAPL followed by a record with no symbol. -/
def logWithNoSymbol : List Trade :=
  [mkTrade 1 "AAPL" (1 / 2) 10000, tradeNoSymbol]

/-! ## The legacy dashboard (`public/app.js`) -/

/-- How the upstream server writes `transaction_id` in JSON, which the sources do not fix:
as a number, or as the string of its decimal digits. -/
inductive IdEncoding where
  | number
  | string
deriving DecidableEq

/-- The test `t.transaction_id === key` of a record's identifier against a property key. A
key is a string, and a number is not strictly equal to any string. -/
def idIsKey (enc : IdEncoding) (id key : Int) : Bool :=
  match enc with
  | .number => false
  | .string => decide (id = key)

/-- The body of `trades.forEach` of the legacy dashboard: add the record's amount to the
total of its transaction. The field `amount`, which no other derivation reads, is the
parameter `amount`. -/
def addToTotals (amount : Trade → ℚ) (totals : List (Int × ℚ)) (t : Trade) :
    List (Int × ℚ) :=
  let sum := (getKey totals t.transaction_id).getD 0 + amount t
  if (getKey totals t.transaction_id).isSome then
    totals.map (fun e => if e.1 = t.transaction_id then (e.1, sum) else e)
  else totals ++ [(t.transaction_id, sum)]

/-- The array `ids` of the legacy dashboard: the keys of `totals` in ascending order. -/
def legacyIds (amount : Trade → ℚ) (trades : List Trade) : List Int :=
  arraySort (fun a b => parseInt a - parseInt b)
    (objectKeys (trades.foldl (addToTotals amount) []))

/-- The array `lastTrades` drawn in the pie chart: the records whose identifier is
strictly equal to `lastId`, the last of `ids`; `none` when the effect returns early on an
empty log. -/
def lastTrades (enc : IdEncoding) (amount : Trade → ℚ) (trades : List Trade) :
    Option (List Trade) :=
  if trades.length = 0 then none
  else
    match (legacyIds amount trades).getLast? with
    | some lastId => some (trades.filter (fun t => idIsKey enc t.transaction_id lastId))
    | none => some []

/-- The array `latest` shown in the header and the table: the records whose identifier is
that of the last record of the log; `none` when the component shows `Loading...` on an
empty log. -/
def latest (trades : List Trade) : Option (List Trade) :=
  match trades.getLast? with
  | none => none
  | some last =>
    some (trades.filter (fun t => decide (t.transaction_id = last.transaction_id)))

/-- Transaction 2 (value 11000, cash 4000) before transaction 1 (value 10000, cash 5000),
one record each. -/
def logWithCash : List Trade :=
  [{ mkTrade 2 "AAPL" (3 / 10) 11000 with final_cash := .num 4000 },
   { mkTrade 1 "AAPL" (1 / 10) 10000 with final_cash := .num 5000 }]

/-- Transaction 2 holds AAPL at 0.3 and BTC at 0.2; transaction 1 holds AAPL at 0.1 and ETH
at 0.4. -/
def logTwoSymbols : List Trade :=
  [mkTrade 2 "AAPL" (3 / 10) 11000, mkTrade 2 "BTC" (1 / 5) 11000,
   mkTrade 1 "AAPL" (1 / 10) 10000, mkTrade 1 "ETH" (2 / 5) 10000]

/-! ## The table of the Trading page -/

/-- The array `filteredTrades`: every processed trade under the filter `all` (`none`), the
trades of one action otherwise. -/
def filteredTrades (filter : Option TradeAction) (trades : List Trade) :
    List ProcessedTrade :=
  (processedTrades trades).filter (fun trade =>
    match filter with
    | none => true
    | some action => decide (trade.action = action))

/-- The expression `trade.symbol.substring(0, 2)` of a table row: the first two characters
of the symbol; reading `substring` from a missing symbol throws a `TypeError`. -/
def symbolIcon : Option String → Except String String
  | some s => .ok (s.take 2)
  | none => .error "TypeError"

/-- The symbol icons of the rows of a table, in order; the first row that throws ends the
render. -/
def renderIcons : List ProcessedTrade → Except String (List String)
  | [] => .ok []
  | trade :: rest =>
    match symbolIcon trade.trade.symbol with
    | .error e => .error e
    | .ok icon =>
      match renderIcons rest with
      | .error e => .error e
      | .ok icons => .ok (icon :: icons)

/-- The symbol icons of the table of the Trading page under a filter. -/
def tableSymbolIcons (filter : Option TradeAction) (trades : List Trade) :
    Except String (List String) :=
  renderIcons (filteredTrades filter trades)

/-! ## Lemmas on `Array.prototype.sort` -/

theorem arraySort_perm {α : Type} (cmp : α → α → Int) (l : List α) :
    (arraySort cmp l).Perm l :=
  List.perm_insertionSort _ l

theorem mem_arraySort {α : Type} (cmp : α → α → Int) (l : List α) (a : α) :
    a ∈ arraySort cmp l ↔ a ∈ l :=
  (arraySort_perm cmp l).mem_iff

/-- Sorting with a comparator that orders by an integer key gives a list ordered by
that key. -/
theorem arraySort_pairwise {α : Type} (key : α → Int) (cmp : α → α → Int)
    (hcmp : ∀ a b, cmp a b ≤ 0 ↔ key a ≤ key b) (l : List α) :
    (arraySort cmp l).Pairwise (fun a b => key a ≤ key b) := by
  have htotal : IsTotal α (fun a b => cmp a b ≤ 0) :=
    ⟨fun a b => by rw [hcmp, hcmp]; exact le_total _ _⟩
  have htrans : IsTrans α (fun a b => cmp a b ≤ 0) :=
    ⟨fun a b c => by rw [hcmp, hcmp, hcmp]; exact le_trans⟩
  have h := List.sorted_insertionSort (fun a b => cmp a b ≤ 0) l
  exact List.Pairwise.imp (fun {a b} hab => (hcmp a b).1 hab) h

/-- The sort is stable: the elements of one key keep their relative order. -/
theorem arraySort_filter_key {α : Type} (key : α → Int) (cmp : α → α → Int)
    (hcmp : ∀ a b, cmp a b ≤ 0 ↔ key a ≤ key b) (k : Int) (l : List α) :
    (arraySort cmp l).filter (fun a => decide (key a = k))
      = l.filter (fun a => decide (key a = k)) := by
  induction l with
  | nil => rfl
  | cons a l ih =>
    have hstep : arraySort cmp (a :: l)
        = (arraySort cmp l).orderedInsert (fun a b => cmp a b ≤ 0) a := rfl
    rw [hstep, List.orderedInsert_eq_take_drop, List.filter_append, List.filter_cons,
      List.filter_cons]
    by_cases hk : key a = k
    · have hnone : ((arraySort cmp l).takeWhile (fun b => decide ¬ cmp a b ≤ 0)).filter
          (fun a => decide (key a = k)) = [] := by
        rw [List.filter_eq_nil_iff]
        intro b hb
        have hb2 := List.mem_takeWhile_imp hb
        simp only [decide_eq_true_eq] at hb2 ⊢
        rw [hcmp] at hb2
        omega
      have hrest : ((arraySort cmp l).dropWhile (fun b => decide ¬ cmp a b ≤ 0)).filter
          (fun a => decide (key a = k)) = (arraySort cmp l).filter
          (fun a => decide (key a = k)) := by
        conv_rhs => rw [← List.takeWhile_append_dropWhile (fun b => decide ¬ cmp a b ≤ 0)
          (arraySort cmp l), List.filter_append, hnone, List.nil_append]
      simp only [hk, decide_True, if_true, hnone, List.nil_append, hrest, ih]
    · simp only [hk, decide_False, Bool.false_eq_true, if_false]
      rw [← List.filter_append, List.takeWhile_append_dropWhile, ih]

/-! ## Lemmas on the portfolio summary -/

theorem latestTx_mem (first : Trade) (rest : List Trade) :
    latestTx first rest ∈ first :: rest := by
  unfold latestTx
  induction rest generalizing first with
  | nil => simp
  | cons a rest ih =>
    have h := ih (pickLatest first a)
    simp only [List.foldl_cons]
    rcases List.mem_cons.1 h with h | h
    · rw [h]; unfold pickLatest; split <;> simp
    · exact List.mem_cons_of_mem _ (List.mem_cons_of_mem _ h)

theorem latestTx_ge_first (first : Trade) (rest : List Trade) :
    first.transaction_id ≤ (latestTx first rest).transaction_id := by
  unfold latestTx
  induction rest generalizing first with
  | nil => simp
  | cons a rest ih =>
    simp only [List.foldl_cons]
    refine le_trans ?_ (ih (pickLatest first a))
    unfold pickLatest parseInt; split <;> omega

theorem latestTx_max (first : Trade) (rest : List Trade) :
    ∀ r ∈ first :: rest, r.transaction_id ≤ (latestTx first rest).transaction_id := by
  induction rest generalizing first with
  | nil => intro r hr; simp at hr; subst hr; exact le_refl _
  | cons a rest ih =>
    intro r hr
    have hfold : latestTx first (a :: rest) = latestTx (pickLatest first a) rest := rfl
    rw [hfold]
    have hp := latestTx_ge_first (pickLatest first a) rest
    have hpick : first.transaction_id ≤ (pickLatest first a).transaction_id
        ∧ a.transaction_id ≤ (pickLatest first a).transaction_id := by
      unfold pickLatest parseInt; split <;> constructor <;> omega
    rcases List.mem_cons.1 hr with h | h
    · subst h; omega
    · rcases List.mem_cons.1 h with h | h
      · subst h; omega
      · exact ih (pickLatest first a) r (List.mem_cons_of_mem _ h)

theorem sortedTrades_perm (trades : List Trade) : (sortedTrades trades).Perm trades :=
  arraySort_perm _ trades

theorem sortedTrades_pairwise (trades : List Trade) :
    (sortedTrades trades).Pairwise (fun a b => b.transaction_id ≤ a.transaction_id) := by
  have h := arraySort_pairwise (fun t : Trade => - t.transaction_id)
    (fun a b => parseInt b.transaction_id - parseInt a.transaction_id)
    (fun a b => by simp only [parseInt]; omega) trades
  exact List.Pairwise.imp (fun {a b} hab => by omega) h

theorem prevValue_of_shared (sorted : List Trade) (x : ℚ)
    (h : ∀ r ∈ sorted, orZero r.portfolio_value = x) : prevValue sorted x = x := by
  unfold prevValue
  split
  · rename_i a b tl
    exact h b (by simp)
  · rfl

theorem jsDiv_mul_hundred (a b : ℚ) (hb : b > 0) :
    (jsDiv a b).mul (.fin 100) = .fin (a / b * 100) := by
  have hne : b ≠ 0 := ne_of_gt hb
  simp [jsDiv, hne, JsNum.mul]

/-- The fields of the summary of a non-empty log, in terms of `latestTx` and `prevValue`. -/
theorem portfolioSummary_cons (first : Trade) (rest : List Trade) :
    (portfolioSummary (first :: rest)).1.totalValue
        = orZero (latestTx first rest).portfolio_value ∧
    (portfolioSummary (first :: rest)).1.cash = orZero (latestTx first rest).final_cash ∧
    (portfolioSummary (first :: rest)).1.dayChange
        = orZero (latestTx first rest).portfolio_value
          - prevValue (sortedTrades (first :: rest)) (orZero (latestTx first rest).portfolio_value) ∧
    (portfolioSummary (first :: rest)).2 = sortedTrades (first :: rest) :=
  ⟨rfl, rfl, rfl, rfl⟩

/-- The percentage is the guarded quotient of the day change by the compared value. -/
theorem dayChangePercent_eq (trades : List Trade) :
    (portfolioSummary trades).1.dayChangePercent
      = if prevValue (sortedTrades trades) (portfolioSummary trades).1.totalValue > 0 then
          .fin ((portfolioSummary trades).1.dayChange
            / prevValue (sortedTrades trades) (portfolioSummary trades).1.totalValue * 100)
        else .fin 0 := by
  cases trades with
  | nil => simp [portfolioSummary, sortedTrades, arraySort, prevValue]
  | cons first rest =>
    simp only [portfolioSummary]
    split
    · rename_i h
      exact jsDiv_mul_hundred _ _ h
    · rfl

theorem dayChange_eq (trades : List Trade) :
    (portfolioSummary trades).1.dayChange
      = (portfolioSummary trades).1.totalValue
        - prevValue (sortedTrades trades) (portfolioSummary trades).1.totalValue := by
  cases trades with
  | nil => simp [portfolioSummary, sortedTrades, arraySort, prevValue]
  | cons first rest => rfl

/-! ## Lemmas on objects and on the history groups -/

theorem getKey_isSome_iff {β : Type} (o : List (Int × β)) (k : Int) :
    (getKey o k).isSome ↔ k ∈ o.map (fun e => e.1) := by
  unfold getKey
  induction o with
  | nil => simp
  | cons e o ih =>
    by_cases h : e.1 = k
    · simp [List.find?_cons, h]
    · have h2 : ¬ k = e.1 := fun h3 => h h3.symm
      simp [List.find?_cons, h, h2, ih]

theorem ownEntries_perm {β : Type} (o : List (Int × β)) : (ownEntries o).Perm o := by
  unfold ownEntries
  exact ((List.perm_insertionSort _ _).append_right _).trans
    (List.filter_append_perm (fun e => isArrayIndex e.1) o)

theorem addToHistoryGroups_ok (txGroups : List (Int × TxGroup)) (trade : Trade)
    (h : GroupsOk txGroups) : GroupsOk (addToHistoryGroups txGroups trade) := by
  unfold addToHistoryGroups
  by_cases hk : (getKey txGroups trade.transaction_id).isSome
  · simp [hk, h]
  · simp only [hk, Bool.false_eq_true, if_false]
    have hnot : trade.transaction_id ∉ txGroups.map (fun e => e.1) := by
      rwa [← getKey_isSome_iff]
    refine ⟨?_, ?_⟩
    · rw [List.map_append, List.nodup_append]
      refine ⟨h.1, by simp, ?_⟩
      intro a ha hb
      simp only [List.map_cons, List.map_nil, List.mem_singleton] at hb
      exact hnot (hb ▸ ha)
    · intro e he
      rcases List.mem_append.1 he with he | he
      · exact h.2 e he
      · simp only [List.mem_singleton] at he
        subst he
        rfl

theorem foldl_addToHistoryGroups_ok (trades : List Trade) (txGroups : List (Int × TxGroup))
    (h : GroupsOk txGroups) : GroupsOk (trades.foldl addToHistoryGroups txGroups) := by
  induction trades generalizing txGroups with
  | nil => exact h
  | cons t trades ih => exact ih _ (addToHistoryGroups_ok txGroups t h)

theorem historyGroups_ok (trades : List Trade) : GroupsOk (historyGroups trades) :=
  foldl_addToHistoryGroups_ok trades [] ⟨List.nodup_nil, fun _ he => by simp at he⟩

theorem addToHistoryGroups_keys (txGroups : List (Int × TxGroup)) (trade : Trade) (i : Int) :
    i ∈ (addToHistoryGroups txGroups trade).map (fun e => e.1)
      ↔ i ∈ txGroups.map (fun e => e.1) ∨ trade.transaction_id = i := by
  unfold addToHistoryGroups
  by_cases hk : (getKey txGroups trade.transaction_id).isSome
  · simp only [hk, if_true]
    constructor
    · exact Or.inl
    · rintro (h | h)
      · exact h
      · rw [← h, ← getKey_isSome_iff]; exact hk
  · simp only [hk, Bool.false_eq_true, if_false, List.map_append, List.mem_append,
      List.map_cons, List.map_nil, List.mem_singleton]
    constructor
    · rintro (h | h)
      · exact Or.inl h
      · exact Or.inr h.symm
    · rintro (h | h)
      · exact Or.inl h
      · exact Or.inr h.symm

theorem foldl_addToHistoryGroups_keys (trades : List Trade) (txGroups : List (Int × TxGroup))
    (i : Int) :
    i ∈ (trades.foldl addToHistoryGroups txGroups).map (fun e => e.1)
      ↔ i ∈ txGroups.map (fun e => e.1) ∨ ∃ r ∈ trades, r.transaction_id = i := by
  induction trades generalizing txGroups with
  | nil => simp
  | cons t trades ih =>
    rw [List.foldl_cons, ih, addToHistoryGroups_keys]
    simp only [List.mem_cons, exists_eq_or_imp, or_assoc]

theorem sortedHistoryGroups_perm (trades : List Trade) :
    (sortedHistoryGroups trades).Perm ((historyGroups trades).map (fun e => e.2)) :=
  (arraySort_perm _ _).trans ((ownEntries_perm (historyGroups trades)).map _)

theorem sortedHistoryGroups_ids_nodup (trades : List Trade) :
    ((sortedHistoryGroups trades).map (fun g => g.transaction_id)).Nodup := by
  have hperm := (sortedHistoryGroups_perm trades).map (fun g => g.transaction_id)
  rw [hperm.nodup_iff, List.map_map]
  have hok := historyGroups_ok trades
  have heq : (historyGroups trades).map ((fun g => g.transaction_id) ∘ fun e => e.2)
      = (historyGroups trades).map (fun e => e.1) :=
    List.map_congr_left (fun e he => hok.2 e he)
  rw [heq]
  exact hok.1

/-- The identifiers of the sorted groups are those of the records of the log. -/
theorem mem_sortedHistoryGroups_ids (trades : List Trade) (i : Int) :
    i ∈ (sortedHistoryGroups trades).map (fun g => g.transaction_id)
      ↔ ∃ r ∈ trades, r.transaction_id = i := by
  have hperm := (sortedHistoryGroups_perm trades).map (fun g => g.transaction_id)
  have hok := historyGroups_ok trades
  have heq : ((historyGroups trades).map (fun e => e.2)).map (fun g => g.transaction_id)
      = (historyGroups trades).map (fun e => e.1) := by
    rw [List.map_map]
    exact List.map_congr_left (fun e he => hok.2 e he)
  rw [hperm.mem_iff, heq]
  unfold historyGroups
  rw [foldl_addToHistoryGroups_keys]
  simp

/-! ## Lemmas on the current positions -/

theorem mathMax_from (xs : List Int) (m : Int) :
    ∃ m', xs.foldl (fun acc x =>
        match acc with
        | none => some x
        | some m => some (max m x)) (some m) = some m'
      ∧ m ≤ m' ∧ (∀ x ∈ xs, x ≤ m') ∧ (m' = m ∨ m' ∈ xs) := by
  induction xs generalizing m with
  | nil => exact ⟨m, rfl, le_refl _, fun _ hx => by simp at hx, Or.inl rfl⟩
  | cons a xs ih =>
    obtain ⟨m', h1, h2, h3, h4⟩ := ih (max m a)
    refine ⟨m', by simpa using h1, le_trans (le_max_left _ _) h2, ?_, ?_⟩
    · intro x hx
      rcases List.mem_cons.1 hx with hx | hx
      · subst hx; exact le_trans (le_max_right _ _) h2
      · exact h3 x hx
    · rcases h4 with h4 | h4
      · rcases max_choice m a with hm | hm
        · left; rw [h4, hm]
        · right; rw [h4, hm]; simp
      · right; exact List.mem_cons_of_mem _ h4

/-- On a non-empty argument list `Math.max` returns an element that bounds the others. -/
theorem mathMax_cons (a : Int) (xs : List Int) :
    ∃ m, mathMax (a :: xs) = some m ∧ m ∈ a :: xs ∧ ∀ x ∈ a :: xs, x ≤ m := by
  obtain ⟨m', h1, h2, h3, h4⟩ := mathMax_from xs a
  refine ⟨m', by simpa [mathMax] using h1, ?_, ?_⟩
  · rcases h4 with h4 | h4
    · rw [h4]; simp
    · exact List.mem_cons_of_mem _ h4
  · intro x hx
    rcases List.mem_cons.1 hx with hx | hx
    · subst hx; exact h2
    · exact h3 x hx

/-! ## Lemmas on the first record of a batch -/

theorem historyGroups_append_singleton (pre : List Trade) (t : Trade) :
    historyGroups (pre ++ [t]) = addToHistoryGroups (historyGroups pre) t := by
  simp [historyGroups, List.foldl_append]

theorem historyGroups_keys (trades : List Trade) (i : Int) :
    i ∈ (historyGroups trades).map (fun e => e.1) ↔ ∃ r ∈ trades, r.transaction_id = i := by
  unfold historyGroups
  rw [foldl_addToHistoryGroups_keys]
  simp

/-- Each group is built from the first record of its transaction in input order. -/
theorem historyGroups_first (trades : List Trade) :
    ∀ e ∈ historyGroups trades, ∃ r,
      trades.find? (fun t => decide (t.transaction_id = e.1)) = some r
        ∧ e.2 = { transaction_id := e.1, date := r.date, time := r.time,
                  portfolio_value := orZero r.portfolio_value,
                  final_cash := orZero r.final_cash } := by
  induction trades using List.reverseRecOn with
  | nil => intro e he; simp [historyGroups] at he
  | append_singleton pre t ih =>
    intro e he
    rw [historyGroups_append_singleton] at he
    have hold : e ∈ historyGroups pre → ∃ r,
        (pre ++ [t]).find? (fun t => decide (t.transaction_id = e.1)) = some r
          ∧ e.2 = { transaction_id := e.1, date := r.date, time := r.time,
                    portfolio_value := orZero r.portfolio_value,
                    final_cash := orZero r.final_cash } := by
      intro h
      obtain ⟨r, hr, hg⟩ := ih e h
      exact ⟨r, by rw [List.find?_append, hr]; rfl, hg⟩
    unfold addToHistoryGroups at he
    by_cases hk : (getKey (historyGroups pre) t.transaction_id).isSome
    · simp only [hk, if_true] at he
      exact hold he
    · simp only [hk, Bool.false_eq_true, if_false] at he
      rcases List.mem_append.1 he with he | he
      · exact hold he
      · simp only [List.mem_singleton] at he
        subst he
        have hnone : pre.find? (fun x => decide (x.transaction_id = t.transaction_id))
            = none := by
          rw [List.find?_eq_none]
          intro x hx hxid
          apply hk
          rw [getKey_isSome_iff, historyGroups_keys]
          exact ⟨x, hx, of_decide_eq_true hxid⟩
        refine ⟨t, ?_, rfl⟩
        rw [List.find?_append, hnone]
        simp

/-- Each point of the history is built from the first record of the transaction of its
group. -/
theorem sortedHistoryGroups_first (trades : List Trade) :
    ∀ g ∈ sortedHistoryGroups trades, ∃ r,
      trades.find? (fun t => decide (t.transaction_id = g.transaction_id)) = some r
        ∧ toHistoryPoint g
            = { timestamp := r.date ++ " " ++ r.time, value := orZero r.portfolio_value,
                cash := orZero r.final_cash } := by
  intro g hg
  have hmem := (sortedHistoryGroups_perm trades).mem_iff.1 hg
  obtain ⟨e, he, heg⟩ := List.mem_map.1 hmem
  obtain ⟨r, hr, hgr⟩ := historyGroups_first trades e he
  have hid : g.transaction_id = e.1 := by rw [← heg]; exact (historyGroups_ok trades).2 e he
  refine ⟨r, by rw [hid]; exact hr, ?_⟩
  rw [← heg, hgr]
  rfl

theorem sortedHistoryGroups_ids_lt (trades : List Trade) :
    ((sortedHistoryGroups trades).map (fun g => g.transaction_id)).Pairwise
      (fun i j => i < j) := by
  have hle : ((sortedHistoryGroups trades).map (fun g => g.transaction_id)).Pairwise
      (fun i j => i ≤ j) := by
    rw [List.pairwise_map]
    exact arraySort_pairwise (fun g : TxGroup => g.transaction_id)
      (fun a b => parseInt a.transaction_id - parseInt b.transaction_id)
      (fun a b => by simp only [parseInt]; omega) _
  have hne : ((sortedHistoryGroups trades).map (fun g => g.transaction_id)).Pairwise
      (fun i j => i ≠ j) := sortedHistoryGroups_ids_nodup trades
  exact (hle.and hne).imp (fun {i j} h => lt_of_le_of_ne h.1 h.2)

/-- The history corresponds point by point to the sorted identifiers. -/
theorem history_pointwise (trades : List Trade) :
    List.Forall₂ (fun i p => ∃ r,
        trades.find? (fun t => decide (t.transaction_id = i)) = some r
          ∧ p = { timestamp := r.date ++ " " ++ r.time, value := orZero r.portfolio_value,
                  cash := orZero r.final_cash })
      ((sortedHistoryGroups trades).map (fun g => g.transaction_id))
      (portfolioHistory trades) := by
  unfold portfolioHistory
  rw [List.forall₂_map_left_iff, List.forall₂_map_right_iff, List.forall₂_same]
  exact sortedHistoryGroups_first trades

/-! ## Lemmas on permuted logs -/

/-- Two strictly increasing lists of integers with the same elements are equal. -/
theorem eq_of_pairwise_lt_of_mem_iff (xs ys : List Int)
    (hx : xs.Pairwise (fun i j => i < j)) (hy : ys.Pairwise (fun i j => i < j))
    (hmem : ∀ i, i ∈ xs ↔ i ∈ ys) : xs = ys := by
  have hnx : xs.Nodup := hx.imp (fun {i j} h => ne_of_lt h)
  have hny : ys.Nodup := hy.imp (fun {i j} h => ne_of_lt h)
  have hperm : xs.Perm ys := (List.perm_ext_iff_of_nodup hnx hny).2 hmem
  exact List.eq_of_perm_of_sorted hperm hx hy

theorem sortedHistoryGroups_ids_perm (l1 l2 : List Trade) (hperm : l1.Perm l2) :
    (sortedHistoryGroups l1).map (fun g => g.transaction_id)
      = (sortedHistoryGroups l2).map (fun g => g.transaction_id) := by
  apply eq_of_pairwise_lt_of_mem_iff _ _ (sortedHistoryGroups_ids_lt l1)
    (sortedHistoryGroups_ids_lt l2)
  intro i
  rw [mem_sortedHistoryGroups_ids, mem_sortedHistoryGroups_ids]
  constructor
  · rintro ⟨r, hr, hi⟩; exact ⟨r, hperm.mem_iff.1 hr, hi⟩
  · rintro ⟨r, hr, hi⟩; exact ⟨r, hperm.mem_iff.2 hr, hi⟩

/-- Two lists in pointwise correspondence with one index list agree under `f` when
corresponding elements do. -/
theorem map_eq_of_pointwise {ι α β : Type} (f : α → β) (P Q : ι → α → Prop)
    (ids : List ι) (xs ys : List α)
    (h1 : List.Forall₂ P ids xs) (h2 : List.Forall₂ Q ids ys)
    (h : ∀ i x y, P i x → Q i y → f x = f y) : xs.map f = ys.map f := by
  induction h1 generalizing ys with
  | nil => cases h2; rfl
  | cons hp _ ih =>
    cases h2 with
    | cons hq hrest =>
      simp only [List.map_cons]
      rw [h _ _ _ hp hq, ih _ hrest]

theorem find?_id_spec (trades : List Trade) (i : Int) (r : Trade)
    (h : trades.find? (fun t => decide (t.transaction_id = i)) = some r) :
    r ∈ trades ∧ r.transaction_id = i :=
  ⟨List.mem_of_find?_eq_some h,
    of_decide_eq_true (List.find?_some (p := fun t : Trade => decide (t.transaction_id = i)) h)⟩

theorem latestTx_id_perm (f1 f2 : Trade) (r1 r2 : List Trade)
    (hperm : (f1 :: r1).Perm (f2 :: r2)) :
    (latestTx f1 r1).transaction_id = (latestTx f2 r2).transaction_id := by
  have h1 := latestTx_max f1 r1 (latestTx f2 r2) (hperm.mem_iff.2 (latestTx_mem f2 r2))
  have h2 := latestTx_max f2 r2 (latestTx f1 r1) (hperm.mem_iff.1 (latestTx_mem f1 r1))
  omega

theorem sortedTrades_ids_perm (l1 l2 : List Trade) (hperm : l1.Perm l2) :
    (sortedTrades l1).map (fun t => t.transaction_id)
      = (sortedTrades l2).map (fun t => t.transaction_id) := by
  have hp : ((sortedTrades l1).map (fun t => t.transaction_id)).Perm
      ((sortedTrades l2).map (fun t => t.transaction_id)) :=
    (((sortedTrades_perm l1).trans hperm).trans (sortedTrades_perm l2).symm).map _
  have hs1 : ((sortedTrades l1).map (fun t => t.transaction_id)).Sorted (fun i j => i ≥ j) := by
    unfold List.Sorted
    rw [List.pairwise_map]
    exact sortedTrades_pairwise l1
  have hs2 : ((sortedTrades l2).map (fun t => t.transaction_id)).Sorted (fun i j => i ≥ j) := by
    unfold List.Sorted
    rw [List.pairwise_map]
    exact sortedTrades_pairwise l2
  exact List.eq_of_perm_of_sorted hp hs1 hs2

/-- The value compared against is the same on two permuted logs whose transactions share
their portfolio value. -/
theorem prevValue_perm (l1 l2 : List Trade) (hperm : l1.Perm l2)
    (hinv : ∀ a ∈ l1, ∀ b ∈ l1, a.transaction_id = b.transaction_id →
      a.portfolio_value = b.portfolio_value) (x : ℚ) :
    prevValue (sortedTrades l1) x = prevValue (sortedTrades l2) x := by
  have hids := sortedTrades_ids_perm l1 l2 hperm
  have hm1 : ∀ t ∈ sortedTrades l1, t ∈ l1 := fun t ht => (sortedTrades_perm l1).mem_iff.1 ht
  have hm2 : ∀ t ∈ sortedTrades l2, t ∈ l1 :=
    fun t ht => hperm.mem_iff.2 ((sortedTrades_perm l2).mem_iff.1 ht)
  generalize sortedTrades l1 = s1 at hids hm1
  generalize sortedTrades l2 = s2 at hids hm2
  match s1, s2, hids, hm1, hm2 with
  | [], [], _, _, _ => rfl
  | [], _ :: _, hids, _, _ => simp at hids
  | _ :: _, [], hids, _, _ => simp at hids
  | [_], [_], _, _, _ => rfl
  | [_], _ :: _ :: _, hids, _, _ => simp at hids
  | _ :: _ :: _, [_], hids, _, _ => simp at hids
  | a :: b :: t, c :: d :: u, hids, hm1, hm2 =>
    simp only [List.map_cons, List.cons.injEq] at hids
    simp only [prevValue]
    rw [hinv b (hm1 b (by simp)) d (hm2 d (by simp)) hids.2.1]

/-! ## Lemmas on the groups of the classifier -/

theorem getKey_cons {β : Type} (e : Int × β) (o : List (Int × β)) (i : Int) :
    getKey (e :: o) i = if e.1 = i then some e.2 else getKey o i := by
  unfold getKey
  by_cases h : e.1 = i <;> simp [List.find?_cons, h]

theorem getKey_map_update {β : Type} (o : List (Int × β)) (k : Int) (f : β → β) (i : Int) :
    getKey (o.map (fun e => if e.1 = k then (e.1, f e.2) else e)) i
      = if i = k then (getKey o i).map f else getKey o i := by
  induction o with
  | nil => simp [getKey]
  | cons e o ih =>
    rw [List.map_cons, getKey_cons, getKey_cons, ih]
    by_cases hk : e.1 = k <;> by_cases hi : e.1 = i <;> by_cases hik : i = k <;>
      simp_all

theorem getKey_append_singleton {β : Type} (o : List (Int × β)) (k : Int) (v : β) (i : Int) :
    getKey (o ++ [(k, v)]) i = (getKey o i).or (if k = i then some v else none) := by
  induction o with
  | nil => simp [getKey_cons, getKey]
  | cons e o ih =>
    rw [List.cons_append, getKey_cons, getKey_cons, ih]
    by_cases hi : e.1 = i <;> simp [hi]

theorem getKey_pushTrade (txGroups : List (Int × List Trade)) (trade : Trade) (i : Int) :
    getKey (pushTrade txGroups trade) i
      = if i = trade.transaction_id then some ((getKey txGroups i).getD [] ++ [trade])
        else getKey txGroups i := by
  unfold pushTrade
  by_cases hk : (getKey txGroups trade.transaction_id).isSome
  · simp only [hk, if_true]
    have hupd := getKey_map_update txGroups trade.transaction_id (fun v => v ++ [trade]) i
    beta_reduce at hupd
    rw [hupd]
    by_cases hi : i = trade.transaction_id
    · subst hi
      obtain ⟨v, hv⟩ := Option.isSome_iff_exists.1 hk
      simp [hv]
    · simp [hi]
  · simp only [hk, Bool.false_eq_true, if_false]
    rw [getKey_append_singleton]
    by_cases hi : i = trade.transaction_id
    · subst hi
      have hnone : getKey txGroups trade.transaction_id = none := by
        simpa using hk
      simp [hnone]
    · have hi2 : ¬ trade.transaction_id = i := fun h => hi h.symm
      simp [hi, hi2]

theorem tradeGroups_append_singleton (pre : List Trade) (t : Trade) :
    tradeGroups (pre ++ [t]) = pushTrade (tradeGroups pre) t := by
  simp [tradeGroups, List.foldl_append]

/-- The array stored for a transaction holds its records in input order. -/
theorem getKey_tradeGroups (trades : List Trade) (i : Int) :
    getKey (tradeGroups trades) i
      = if batchOf trades i = [] then none else some (batchOf trades i) := by
  induction trades using List.reverseRecOn with
  | nil => simp [tradeGroups, getKey, batchOf]
  | append_singleton pre t ih =>
    rw [tradeGroups_append_singleton, getKey_pushTrade, ih]
    unfold batchOf
    rw [List.filter_append]
    by_cases hi : i = t.transaction_id
    · subst hi
      by_cases hb : List.filter (fun x : Trade =>
          decide (x.transaction_id = t.transaction_id)) pre = []
      · simp [hb]
      · simp [hb]
    · have hi2 : ¬ t.transaction_id = i := fun h => hi h.symm
      simp [hi, hi2]

theorem batchOf_eq_nil_iff (trades : List Trade) (i : Int) :
    batchOf trades i = [] ↔ ¬ ∃ r ∈ trades, r.transaction_id = i := by
  unfold batchOf
  rw [List.filter_eq_nil_iff]
  simp

theorem getD_getKey_tradeGroups (trades : List Trade) (i : Int) :
    (getKey (tradeGroups trades) i).getD [] = batchOf trades i := by
  rw [getKey_tradeGroups]
  by_cases hb : batchOf trades i = [] <;> simp [hb]

theorem tradeGroups_keys (trades : List Trade) (i : Int) :
    i ∈ (tradeGroups trades).map (fun e => e.1) ↔ ∃ r ∈ trades, r.transaction_id = i := by
  rw [← getKey_isSome_iff, getKey_tradeGroups]
  by_cases hb : batchOf trades i = []
  · simp only [hb, if_true, Option.isSome_none, Bool.false_eq_true, false_iff]
    exact (batchOf_eq_nil_iff trades i).1 hb
  · simp only [hb, if_false, Option.isSome_some, true_iff]
    by_contra hne
    exact hb ((batchOf_eq_nil_iff trades i).2 hne)

theorem pushTrade_keys_nodup (txGroups : List (Int × List Trade)) (trade : Trade)
    (h : (txGroups.map (fun e => e.1)).Nodup) :
    ((pushTrade txGroups trade).map (fun e => e.1)).Nodup := by
  unfold pushTrade
  by_cases hk : (getKey txGroups trade.transaction_id).isSome
  · simp only [hk, if_true, List.map_map]
    have hkeys : txGroups.map ((fun e : Int × List Trade => e.1) ∘
        fun e => if e.1 = trade.transaction_id then (e.1, e.2 ++ [trade]) else e)
        = txGroups.map (fun e => e.1) := by
      apply List.map_congr_left
      intro e _
      by_cases he : e.1 = trade.transaction_id <;> simp [he]
    rw [hkeys]
    exact h
  · simp only [hk, Bool.false_eq_true, if_false]
    have hnot : trade.transaction_id ∉ txGroups.map (fun e => e.1) := by
      rwa [← getKey_isSome_iff]
    rw [List.map_append, List.nodup_append]
    refine ⟨h, by simp, ?_⟩
    intro a ha hb
    simp only [List.map_cons, List.map_nil, List.mem_singleton] at hb
    exact hnot (hb ▸ ha)

theorem tradeGroups_keys_nodup (trades : List Trade) :
    ((tradeGroups trades).map (fun e => e.1)).Nodup := by
  induction trades using List.reverseRecOn with
  | nil => simp [tradeGroups]
  | append_singleton pre t ih =>
    rw [tradeGroups_append_singleton]
    exact pushTrade_keys_nodup _ t ih

/-! ## Lemmas on the classification loop -/

theorem processedTrades_eq (trades : List Trade) :
    processedTrades trades
      = processLoop (tradeGroups trades) none [] (sortedTxIds trades) := rfl

theorem sortedTxIds_perm (trades : List Trade) :
    (sortedTxIds trades).Perm ((tradeGroups trades).map (fun e => e.1)) :=
  (arraySort_perm _ _).trans ((ownEntries_perm (tradeGroups trades)).map _)

theorem mem_sortedTxIds (trades : List Trade) (i : Int) :
    i ∈ sortedTxIds trades ↔ ∃ r ∈ trades, r.transaction_id = i := by
  rw [(sortedTxIds_perm trades).mem_iff, tradeGroups_keys]

theorem sortedTxIds_nodup (trades : List Trade) : (sortedTxIds trades).Nodup :=
  (sortedTxIds_perm trades).nodup_iff.2 (tradeGroups_keys_nodup trades)

theorem sortedTxIds_gt (trades : List Trade) :
    (sortedTxIds trades).Pairwise (fun i j => j < i) := by
  have hle : (sortedTxIds trades).Pairwise (fun i j => j ≤ i) := by
    have h := arraySort_pairwise (fun i : Int => - i)
      (fun a b => parseInt b - parseInt a)
      (fun a b => by simp only [parseInt]; omega) (objectKeys (tradeGroups trades))
    exact List.Pairwise.imp (fun {a b} hab => by omega) h
  have hne : (sortedTxIds trades).Pairwise (fun i j => i ≠ j) := sortedTxIds_nodup trades
  exact (hle.and hne).imp (fun {i j} h => lt_of_le_of_ne h.1 (Ne.symm h.2))

theorem compareWithPrev_trades (prevTx currentTx : List Trade) :
    (compareWithPrev prevTx currentTx).map (fun p => p.trade) = currentTx := by
  simp [compareWithPrev, Function.comp_def]

theorem allBuys_trades (currentTx : List Trade) :
    (allBuys currentTx).map (fun p => p.trade) = currentTx := by
  simp [allBuys, Function.comp_def]

theorem compareWithPrev_action (prevTx currentTx : List Trade) :
    ∀ p ∈ compareWithPrev prevTx currentTx, p.action = actionOf p.allocChange := by
  intro p hp
  simp only [compareWithPrev, List.mem_map] at hp
  obtain ⟨t, _, rfl⟩ := hp
  rfl

/-- The records behind the output of the loop: those already emitted, then the arrays of
the remaining identifiers in turn. -/
theorem processLoop_trades (txGroups : List (Int × List Trade)) (ids : List Int) :
    ∀ (prevTx : Option (List Trade)) (processed : List ProcessedTrade),
      (processLoop txGroups prevTx processed ids).map (fun p => p.trade)
        = processed.map (fun p => p.trade)
          ++ ids.flatMap (fun i => (getKey txGroups i).getD []) := by
  induction ids with
  | nil => intro prevTx processed; simp [processLoop]
  | cons i ids ih =>
    intro prevTx processed
    simp only [processLoop, List.flatMap_cons]
    rw [ih, List.map_append, List.append_assoc]
    congr 2
    cases prevTx with
    | none => exact allBuys_trades _
    | some prev => exact compareWithPrev_trades prev _

/-- An element of the output of the loop was already emitted, or is a buy of the first
identifier processed with no predecessor, or is labelled from its allocation change. -/
theorem processLoop_mem (txGroups : List (Int × List Trade)) (ids : List Int) :
    ∀ (prevTx : Option (List Trade)) (processed : List ProcessedTrade),
      ∀ p ∈ processLoop txGroups prevTx processed ids,
        p ∈ processed
          ∨ (prevTx = none ∧ ∃ hd tl, ids = hd :: tl
              ∧ p ∈ allBuys ((getKey txGroups hd).getD []))
          ∨ p.action = actionOf p.allocChange := by
  induction ids with
  | nil => intro prevTx processed p hp; left; simpa [processLoop] using hp
  | cons i ids ih =>
    intro prevTx processed p hp
    simp only [processLoop] at hp
    rcases ih _ _ p hp with h | h | h
    · rcases List.mem_append.1 h with h | h
      · exact Or.inl h
      · cases prevTx with
        | none => exact Or.inr (Or.inl ⟨rfl, i, ids, rfl, h⟩)
        | some prev => exact Or.inr (Or.inr (compareWithPrev_action prev _ p h))
    · exact absurd h.1 (by simp)
    · exact Or.inr (Or.inr h)

theorem actionOf_spec (d : ℚ) :
    (actionOf d = .buy ↔ d > 1 / 100)
      ∧ (actionOf d = .sell ↔ d < -(1 / 100))
      ∧ (actionOf d = .hold ↔ -(1 / 100) ≤ d ∧ d ≤ 1 / 100) := by
  by_cases h1 : d > 1 / 100
  · have hact : actionOf d = .buy := by unfold actionOf; rw [if_pos h1]
    rw [hact]
    refine ⟨⟨fun _ => h1, fun _ => rfl⟩, ⟨(fun h => by cases h), fun h => ?_⟩,
      ⟨(fun h => by cases h), fun h => ?_⟩⟩
    · exfalso; linarith
    · exfalso; linarith [h.2]
  · by_cases h2 : d < -(1 / 100)
    · have hact : actionOf d = .sell := by unfold actionOf; rw [if_neg h1, if_pos h2]
      rw [hact]
      refine ⟨⟨(fun h => by cases h), fun h => absurd h h1⟩, ⟨fun _ => h2, fun _ => rfl⟩,
        ⟨(fun h => by cases h), fun h => ?_⟩⟩
      exfalso; linarith [h.1]
    · have hact : actionOf d = .hold := by unfold actionOf; rw [if_neg h1, if_neg h2]
      rw [hact]
      exact ⟨⟨(fun h => by cases h), fun h => absurd h h1⟩,
        ⟨(fun h => by cases h), fun h => absurd h h2⟩,
        ⟨fun _ => ⟨not_lt.1 h2, not_lt.1 h1⟩, fun _ => rfl⟩⟩

theorem filter_or_perm {α : Type} (p q : α → Bool) (l : List α)
    (h : ∀ a ∈ l, ¬ (p a = true ∧ q a = true)) :
    (l.filter p ++ l.filter q).Perm (l.filter (fun a => p a || q a)) := by
  induction l with
  | nil => simp
  | cons a l ih =>
    have ih2 := ih (fun b hb => h b (List.mem_cons_of_mem _ hb))
    have ha := h a (List.mem_cons_self _ _)
    cases hp : p a <;> cases hq : q a
    · simpa [List.filter_cons, hp, hq] using ih2
    · simp only [List.filter_cons, hp, hq, Bool.false_eq_true, if_false, if_true,
        Bool.or_true]
      exact List.perm_middle.trans (List.Perm.cons a ih2)
    · simpa [List.filter_cons, hp, hq] using ih2
    · exact absurd ⟨hp, hq⟩ ha

/-- Listing the batches of distinct identifiers one after the other permutes the records
that carry one of these identifiers. -/
theorem flatMap_batchOf_perm (trades : List Trade) (ids : List Int) (hn : ids.Nodup) :
    (ids.flatMap (batchOf trades)).Perm
      (trades.filter (fun t => decide (t.transaction_id ∈ ids))) := by
  induction ids with
  | nil => simp
  | cons i ids ih =>
    rw [List.nodup_cons] at hn
    rw [List.flatMap_cons]
    refine ((ih hn.2).append_left _).trans ?_
    unfold batchOf
    refine (filter_or_perm _ _ trades ?_).trans ?_
    · intro a _ hboth
      simp only [decide_eq_true_eq] at hboth
      exact hn.1 (hboth.1 ▸ hboth.2)
    · apply List.Perm.of_eq
      apply List.filter_congr
      intro a _
      simp [List.mem_cons]

theorem processedTrades_trades (trades : List Trade) :
    (processedTrades trades).map (fun p => p.trade)
      = (sortedTxIds trades).flatMap (batchOf trades) := by
  rw [processedTrades_eq, processLoop_trades]
  simp only [List.map_nil, List.nil_append]
  congr 1
  funext i
  exact getD_getKey_tradeGroups trades i

theorem processedTrades_trades_perm (trades : List Trade) :
    ((processedTrades trades).map (fun p => p.trade)).Perm trades := by
  rw [processedTrades_trades]
  refine (flatMap_batchOf_perm trades _ (sortedTxIds_nodup trades)).trans ?_
  apply List.Perm.of_eq
  rw [List.filter_eq_self]
  intro a ha
  simp only [decide_eq_true_eq]
  exact (mem_sortedTxIds trades _).2 ⟨a, ha, rfl⟩

/-- The positions are the records of maximal identifier with positive shares, mapped by
`toPosition` in input order. -/
theorem currentPositions_eq_filter (trades : List Trade) :
    currentPositions trades
      = (trades.filter (fun t =>
          decide (∀ r ∈ trades, r.transaction_id ≤ t.transaction_id)
            && gtZero t.shares_held)).map toPosition := by
  cases trades with
  | nil => rfl
  | cons first rest =>
    obtain ⟨m, hm, hmem, hmax⟩ :=
      mathMax_cons (parseInt first.transaction_id)
        (rest.map (fun t => parseInt t.transaction_id))
    have hm2 : mathMax ((first :: rest).map (fun t => parseInt t.transaction_id)) = some m :=
      hm
    have hmem2 : ∃ r ∈ first :: rest, r.transaction_id = m := by
      have h := hmem
      rw [← List.map_cons (fun t : Trade => parseInt t.transaction_id)] at h
      obtain ⟨r, hr, hrm⟩ := List.mem_map.1 h
      exact ⟨r, hr, hrm⟩
    have hmax2 : ∀ r ∈ first :: rest, r.transaction_id ≤ m := by
      intro r hr
      apply hmax
      rw [← List.map_cons (fun t : Trade => parseInt t.transaction_id)]
      exact List.mem_map.2 ⟨r, hr, rfl⟩
    unfold currentPositions
    simp only [List.length_cons, Nat.add_one_ne_zero, if_false, hm2]
    congr 1
    apply List.filter_congr
    intro t _
    congr 1
    rw [decide_eq_decide]
    simp only [parseInt, Option.some.injEq]
    constructor
    · intro h r hr
      rw [h]; exact hmax2 r hr
    · intro h
      obtain ⟨r, hr, hrm⟩ := hmem2
      have h1 := h r hr
      have h2 := hmax2 t (by assumption)
      omega

theorem processedTrades_logDescending :
    processedTrades logDescending
      = [⟨mkTrade 2 "AAPL" (3 / 10) 11000, .buy, 3 / 10⟩,
         ⟨mkTrade 1 "AAPL" (1 / 10) 10000, .sell, -(1 / 5)⟩] := by
  simp [processedTrades, logDescending, tradeGroups, pushTrade, getKey, arraySort, objectKeys,
    ownEntries, isArrayIndex, processLoop, allBuys, compareWithPrev, prevMapOf, prevAllocOf,
    symbolKey, actionOf, mkTrade, parseInt]
  norm_num

/-! ## Lemmas on the latest record and on the sorted log -/

theorem latestTx_append_singleton (first : Trade) (pre : List Trade) (t : Trade) :
    latestTx first (pre ++ [t]) = pickLatest (latestTx first pre) t := by
  simp [latestTx, List.foldl_append]

/-- The record `latestTx` is the first record of the log, in input order, that carries the
maximal identifier. -/
theorem latestTx_find (first : Trade) (rest : List Trade) :
    (first :: rest).find?
        (fun t => decide (t.transaction_id = (latestTx first rest).transaction_id))
      = some (latestTx first rest) := by
  induction rest using List.reverseRecOn with
  | nil => simp [latestTx]
  | append_singleton pre t ih =>
    rw [latestTx_append_singleton]
    unfold pickLatest
    by_cases h : parseInt t.transaction_id > parseInt (latestTx first pre).transaction_id
    · rw [if_pos h, ← List.cons_append, List.find?_append]
      have hnone : (first :: pre).find?
          (fun x => decide (x.transaction_id = t.transaction_id)) = none := by
        rw [List.find?_eq_none]
        intro x hx hxid
        have h1 := latestTx_max first pre x hx
        have h2 : x.transaction_id = t.transaction_id := of_decide_eq_true hxid
        simp only [parseInt] at h
        omega
      rw [hnone]
      simp
    · rw [if_neg h, ← List.cons_append, List.find?_append, ih]
      rfl

theorem find?_eq_head?_filter {α : Type} (p : α → Bool) (l : List α) :
    l.find? p = (l.filter p).head? := by
  induction l with
  | nil => rfl
  | cons a l ih =>
    cases hp : p a
    · simp only [List.find?_cons, List.filter_cons, hp, Bool.false_eq_true, if_false]
      exact ih
    · simp only [List.find?_cons, List.filter_cons, hp, if_true, List.head?_cons]

/-- The in-place sort of the summary keeps the records of each transaction in order. -/
theorem batchOf_sortedTrades (trades : List Trade) (i : Int) :
    batchOf (sortedTrades trades) i = batchOf trades i := by
  have h := arraySort_filter_key (fun t : Trade => - t.transaction_id)
    (fun a b => parseInt b.transaction_id - parseInt a.transaction_id)
    (fun a b => by simp only [parseInt]; omega) (-i) trades
  simpa [sortedTrades, batchOf, neg_inj] using h

theorem sortedTrades_idem (trades : List Trade) :
    sortedTrades (sortedTrades trades) = sortedTrades trades := by
  have hs : List.Sorted (fun a b : Trade =>
      parseInt b.transaction_id - parseInt a.transaction_id ≤ 0) (sortedTrades trades) :=
    List.Pairwise.imp (fun {a b} hab => by simp only [parseInt]; omega)
      (sortedTrades_pairwise trades)
  exact hs.insertionSort_eq

/-- Two logs with the same records per transaction have the same latest record. -/
theorem latestTx_eq_of_batchOf (f1 f2 : Trade) (r1 r2 : List Trade)
    (hb : ∀ i, batchOf (f1 :: r1) i = batchOf (f2 :: r2) i) :
    latestTx f1 r1 = latestTx f2 r2 := by
  have hmem : ∀ x, x ∈ f1 :: r1 → x ∈ f2 :: r2 := by
    intro x hx
    have hin : x ∈ batchOf (f1 :: r1) x.transaction_id :=
      List.mem_filter.2 ⟨hx, decide_eq_true rfl⟩
    rw [hb] at hin
    exact (List.mem_filter.1 hin).1
  have hmem2 : ∀ x, x ∈ f2 :: r2 → x ∈ f1 :: r1 := by
    intro x hx
    have hin : x ∈ batchOf (f2 :: r2) x.transaction_id :=
      List.mem_filter.2 ⟨hx, decide_eq_true rfl⟩
    rw [← hb] at hin
    exact (List.mem_filter.1 hin).1
  have hid : (latestTx f1 r1).transaction_id = (latestTx f2 r2).transaction_id := by
    have h1 := latestTx_max f1 r1 _ (hmem2 _ (latestTx_mem f2 r2))
    have h2 := latestTx_max f2 r2 _ (hmem _ (latestTx_mem f1 r1))
    omega
  have h1 := latestTx_find f1 r1
  have h2 := latestTx_find f2 r2
  rw [find?_eq_head?_filter] at h1 h2
  rw [hid] at h1
  have hb2 := hb (latestTx f2 r2).transaction_id
  unfold batchOf at hb2
  rw [hb2, h2] at h1
  exact (Option.some.inj h1).symm

/-! ## Lemmas on the order of the classification -/

theorem prevMapOf_append_singleton (pre : List Trade) (t : Trade) :
    prevMapOf (pre ++ [t])
      = Function.update (prevMapOf pre) (symbolKey t.symbol) (some t.allocation) := by
  simp [prevMapOf, List.foldl_append]

/-- The value read from `prevMap` is the allocation of the last record of the compared
batch with the same symbol, and 0 when there is none. -/
theorem prevAllocOf_prevMapOf (prevTx : List Trade) (symbol : Option String) :
    prevAllocOf (prevMapOf prevTx) symbol = lastAllocOf prevTx symbol := by
  induction prevTx using List.reverseRecOn with
  | nil => simp [prevAllocOf, prevMapOf, lastAllocOf]
  | append_singleton pre t ih =>
    rw [prevMapOf_append_singleton]
    unfold lastAllocOf
    rw [List.reverse_append, List.reverse_singleton, List.singleton_append, List.find?_cons]
    by_cases hk : symbolKey t.symbol = symbolKey symbol
    · have hd : decide (symbolKey t.symbol = symbolKey symbol) = true := decide_eq_true hk
      rw [hd]
      unfold prevAllocOf
      rw [← hk, Function.update_same]
      rfl
    · have hk2 : ¬ symbolKey symbol = symbolKey t.symbol := fun h => hk h.symm
      have hd : decide (symbolKey t.symbol = symbolKey symbol) = false :=
        decide_eq_false hk
      rw [hd]
      have hupd : prevAllocOf (Function.update (prevMapOf pre) (symbolKey t.symbol)
          (some t.allocation)) symbol = prevAllocOf (prevMapOf pre) symbol := by
        unfold prevAllocOf
        rw [Function.update_noteq hk2]
      rw [hupd, ih]
      rfl

theorem compareWithPrev_eq (prevTx currentTx : List Trade) :
    compareWithPrev prevTx currentTx
      = currentTx.map (fun t =>
          { trade := t,
            action := actionOf (t.allocation - lastAllocOf prevTx t.symbol),
            allocChange := t.allocation - lastAllocOf prevTx t.symbol }) := by
  unfold compareWithPrev
  apply List.map_congr_left
  intro t _
  simp only [prevAllocOf_prevMapOf]

theorem processLoop_some (trades : List Trade) (ids : List Int) :
    ∀ (j : Int) (processed : List ProcessedTrade),
      processLoop (tradeGroups trades) (some (batchOf trades j)) processed ids
        = processed ++ ((j :: ids).zip ids).flatMap
            (fun ji => compareWithPrev (batchOf trades ji.1) (batchOf trades ji.2)) := by
  induction ids with
  | nil => intro j processed; simp [processLoop]
  | cons i ids ih =>
    intro j processed
    simp only [processLoop, getD_getKey_tradeGroups]
    rw [ih, List.zip_cons_cons, List.flatMap_cons, List.append_assoc]

/-- The classifier runs over the identifiers in descending order: the first batch is all
buys and every later batch is compared with the batch processed just before it. -/
theorem processedTrades_eq_classifyInOrder (trades : List Trade) :
    processedTrades trades = classifyInOrder (batchOf trades) (sortedTxIds trades) := by
  rw [processedTrades_eq]
  unfold classifyInOrder
  cases sortedTxIds trades with
  | nil => simp [processLoop]
  | cons i ids =>
    simp only [processLoop, getD_getKey_tradeGroups, List.nil_append, List.tail_cons]
    exact processLoop_some trades ids i _

/-- In a strictly descending list, a pair of neighbours `(j, i)` has `j` the least element
above `i`. -/
theorem zip_tail_next_higher (l : List Int) (hl : l.Pairwise (fun i j => j < i)) :
    ∀ ji ∈ l.zip l.tail,
      ji.2 < ji.1 ∧ ji.1 ∈ l ∧ ji.2 ∈ l ∧ ∀ x ∈ l, ji.2 < x → ji.1 ≤ x := by
  induction l with
  | nil => intro ji h; simp at h
  | cons a l ih =>
    cases l with
    | nil => intro ji h; simp at h
    | cons b tl =>
      intro ji h
      rw [List.pairwise_cons] at hl
      simp only [List.tail_cons, List.zip_cons_cons, List.mem_cons] at h
      rcases h with h | h
      · subst h
        refine ⟨hl.1 b (by simp), by simp, by simp, ?_⟩
        intro x hx hbx
        rcases List.mem_cons.1 hx with hx | hx
        · exact le_of_eq hx.symm
        · rcases List.mem_cons.1 hx with hx | hx
          · omega
          · have := (List.pairwise_cons.1 hl.2).1 x hx
            simp only at hbx
            omega
      · obtain ⟨h1, h2, h3, h4⟩ := ih hl.2 ji (by simpa using h)
        refine ⟨h1, List.mem_cons_of_mem _ h2, List.mem_cons_of_mem _ h3, ?_⟩
        intro x hx hix
        rcases List.mem_cons.1 hx with hx | hx
        · have := hl.1 _ h2
          omega
        · exact h4 x hx hix

theorem mem_classifyInOrder (batch : Int → List Trade) (ids : List Int) (p : ProcessedTrade)
    (hp : p ∈ classifyInOrder batch ids) :
    (∃ i tl, ids = i :: tl ∧ p ∈ allBuys (batch i))
      ∨ ∃ ji ∈ ids.zip ids.tail, p ∈ compareWithPrev (batch ji.1) (batch ji.2) := by
  unfold classifyInOrder at hp
  rcases List.mem_append.1 hp with h | h
  · left
    cases ids with
    | nil => simp at h
    | cons i tl => exact ⟨i, tl, rfl, h⟩
  · right
    obtain ⟨ji, hji, hpj⟩ := List.mem_flatMap.1 h
    exact ⟨ji, hji, hpj⟩

theorem mem_allBuys_batchOf (trades : List Trade) (i : Int) (p : ProcessedTrade)
    (hp : p ∈ allBuys (batchOf trades i)) :
    p.trade.transaction_id = i ∧ p.action = .buy ∧ p.allocChange = p.trade.allocation := by
  simp only [allBuys, List.mem_map] at hp
  obtain ⟨t, ht, rfl⟩ := hp
  exact ⟨of_decide_eq_true (List.mem_filter.1 ht).2, rfl, rfl⟩

theorem mem_compareWithPrev_batchOf (trades : List Trade) (j i : Int) (p : ProcessedTrade)
    (hp : p ∈ compareWithPrev (batchOf trades j) (batchOf trades i)) :
    p.trade.transaction_id = i
      ∧ p.allocChange = p.trade.allocation - lastAllocOf (batchOf trades j) p.trade.symbol
      ∧ p.action = actionOf p.allocChange := by
  rw [compareWithPrev_eq] at hp
  simp only [List.mem_map] at hp
  obtain ⟨t, ht, rfl⟩ := hp
  exact ⟨of_decide_eq_true (List.mem_filter.1 ht).2, rfl, rfl⟩

/-- A record of the highest-identifier batch is a buy with its own allocation. -/
theorem processedTrades_highest (trades : List Trade) (p : ProcessedTrade)
    (hp : p ∈ processedTrades trades)
    (hmax : ∀ r ∈ trades, r.transaction_id ≤ p.trade.transaction_id) :
    p.action = .buy ∧ p.allocChange = p.trade.allocation := by
  rw [processedTrades_eq_classifyInOrder] at hp
  rcases mem_classifyInOrder _ _ p hp with ⟨i, tl, _, hin⟩ | ⟨ji, hji, hin⟩
  · exact (mem_allBuys_batchOf trades i p hin).2
  · exfalso
    obtain ⟨h1, h2, _, _⟩ := zip_tail_next_higher _ (sortedTxIds_gt trades) ji hji
    obtain ⟨r, hr, hrid⟩ := (mem_sortedTxIds trades _).1 h2
    have h3 := hmax r hr
    have h4 := (mem_compareWithPrev_batchOf trades _ _ p hin).1
    omega

/-- A record of another batch is compared with the batch of the next-higher identifier. -/
theorem processedTrades_lower (trades : List Trade) (p : ProcessedTrade)
    (hp : p ∈ processedTrades trades) (j : Int)
    (hj : ∃ r ∈ trades, r.transaction_id = j) (hlt : p.trade.transaction_id < j)
    (hnext : ∀ r ∈ trades, p.trade.transaction_id < r.transaction_id →
      j ≤ r.transaction_id) :
    p.allocChange = p.trade.allocation - lastAllocOf (batchOf trades j) p.trade.symbol
      ∧ p.action = actionOf p.allocChange := by
  rw [processedTrades_eq_classifyInOrder] at hp
  have hsorted := sortedTxIds_gt trades
  have hjmem := (mem_sortedTxIds trades j).2 hj
  rcases mem_classifyInOrder _ _ p hp with ⟨i, tl, hids, hin⟩ | ⟨ji, hji, hin⟩
  · exfalso
    have hpid := (mem_allBuys_batchOf trades i p hin).1
    rw [hids] at hsorted hjmem
    rcases List.mem_cons.1 hjmem with h | h
    · omega
    · have := (List.pairwise_cons.1 hsorted).1 j h
      omega
  · obtain ⟨h1, h2, _, h4⟩ := zip_tail_next_higher _ hsorted ji hji
    obtain ⟨hpid, hchange, hact⟩ := mem_compareWithPrev_batchOf trades _ _ p hin
    obtain ⟨r, hr, hrid⟩ := (mem_sortedTxIds trades _).1 h2
    have h5 := h4 j hjmem (by omega)
    have h6 := hnext r hr (by omega)
    have hji1 : ji.1 = j := by omega
    rw [hji1] at hchange
    exact ⟨hchange, hact⟩

/-! ## Lemmas on logs with the same batches -/

theorem mem_of_batchOf_eq (l1 l2 : List Trade)
    (hb : ∀ i, batchOf l1 i = batchOf l2 i) (x : Trade) (hx : x ∈ l1) : x ∈ l2 := by
  have hin : x ∈ batchOf l1 x.transaction_id :=
    List.mem_filter.2 ⟨hx, decide_eq_true rfl⟩
  rw [hb] at hin
  exact (List.mem_filter.1 hin).1

theorem ids_iff_of_batchOf_eq (l1 l2 : List Trade)
    (hb : ∀ i, batchOf l1 i = batchOf l2 i) (i : Int) :
    (∃ r ∈ l1, r.transaction_id = i) ↔ ∃ r ∈ l2, r.transaction_id = i := by
  constructor
  · rintro ⟨r, hr, hi⟩; exact ⟨r, mem_of_batchOf_eq l1 l2 hb r hr, hi⟩
  · rintro ⟨r, hr, hi⟩; exact ⟨r, mem_of_batchOf_eq l2 l1 (fun i => (hb i).symm) r hr, hi⟩

/-- Two strictly descending lists of integers with the same elements are equal. -/
theorem eq_of_pairwise_gt_of_mem_iff (xs ys : List Int)
    (hx : xs.Pairwise (fun i j => j < i)) (hy : ys.Pairwise (fun i j => j < i))
    (hmem : ∀ i, i ∈ xs ↔ i ∈ ys) : xs = ys := by
  have h := eq_of_pairwise_lt_of_mem_iff xs.reverse ys.reverse
    (List.pairwise_reverse.2 hx) (List.pairwise_reverse.2 hy)
    (fun i => by rw [List.mem_reverse, List.mem_reverse]; exact hmem i)
  exact List.reverse_injective h

theorem sortedTxIds_eq_of_batchOf_eq (l1 l2 : List Trade)
    (hb : ∀ i, batchOf l1 i = batchOf l2 i) : sortedTxIds l1 = sortedTxIds l2 := by
  apply eq_of_pairwise_gt_of_mem_iff _ _ (sortedTxIds_gt l1) (sortedTxIds_gt l2)
  intro i
  rw [mem_sortedTxIds, mem_sortedTxIds]
  exact ids_iff_of_batchOf_eq l1 l2 hb i

/-- The classification depends only on the records of each transaction, in their order. -/
theorem processedTrades_eq_of_batchOf_eq (l1 l2 : List Trade)
    (hb : ∀ i, batchOf l1 i = batchOf l2 i) : processedTrades l1 = processedTrades l2 := by
  rw [processedTrades_eq_classifyInOrder, processedTrades_eq_classifyInOrder,
    sortedTxIds_eq_of_batchOf_eq l1 l2 hb]
  have hfun : batchOf l1 = batchOf l2 := funext hb
  rw [hfun]

/-- The history depends only on the records of each transaction, in their order. -/
theorem portfolioHistory_eq_of_batchOf_eq (l1 l2 : List Trade)
    (hb : ∀ i, batchOf l1 i = batchOf l2 i) : portfolioHistory l1 = portfolioHistory l2 := by
  have hids : (sortedHistoryGroups l1).map (fun g => g.transaction_id)
      = (sortedHistoryGroups l2).map (fun g => g.transaction_id) := by
    apply eq_of_pairwise_lt_of_mem_iff _ _ (sortedHistoryGroups_ids_lt l1)
      (sortedHistoryGroups_ids_lt l2)
    intro i
    rw [mem_sortedHistoryGroups_ids, mem_sortedHistoryGroups_ids]
    exact ids_iff_of_batchOf_eq l1 l2 hb i
  have h1 := history_pointwise l1
  have h2 := history_pointwise l2
  rw [← hids] at h2
  have h := map_eq_of_pointwise (fun p : HistoryPoint => p) _ _ _ _ _ h1 h2 (by
    rintro i x y ⟨r1, hr1, hx⟩ ⟨r2, hr2, hy⟩
    rw [find?_eq_head?_filter] at hr1 hr2
    have hbi := hb i
    unfold batchOf at hbi
    rw [hbi, hr2] at hr1
    have hr : r2 = r1 := Option.some.inj hr1
    rw [hx, hy, hr])
  simpa using h

/-- The positions are those of the batch of the latest record. -/
theorem currentPositions_cons (f : Trade) (r : List Trade) :
    currentPositions (f :: r)
      = ((batchOf (f :: r) (latestTx f r).transaction_id).filter
          (fun t => gtZero t.shares_held)).map toPosition := by
  rw [currentPositions_eq_filter]
  congr 1
  unfold batchOf
  rw [List.filter_filter]
  apply List.filter_congr
  intro t ht
  rw [Bool.and_comm]
  congr 1
  rw [decide_eq_decide]
  constructor
  · intro h
    have h1 := h _ (latestTx_mem f r)
    have h2 := latestTx_max f r t ht
    omega
  · intro h x hx
    rw [h]
    exact latestTx_max f r x hx

/-- The positions depend only on the records of each transaction, in their order. -/
theorem currentPositions_eq_of_batchOf_eq (l1 l2 : List Trade)
    (hb : ∀ i, batchOf l1 i = batchOf l2 i) : currentPositions l1 = currentPositions l2 := by
  match l1, l2, hb with
  | [], [], _ => rfl
  | [], f :: r, hb =>
    have h := mem_of_batchOf_eq (f :: r) [] (fun i => (hb i).symm) f (List.mem_cons_self _ _)
    simp at h
  | f :: r, [], hb =>
    have h := mem_of_batchOf_eq (f :: r) [] hb f (List.mem_cons_self _ _)
    simp at h
  | f1 :: r1, f2 :: r2, hb =>
    rw [currentPositions_cons, currentPositions_cons,
      latestTx_eq_of_batchOf f1 f2 r1 r2 hb, hb]

/-! ## Lemmas on a log with one record more -/

theorem sortedTxIds_of_max (trades : List Trade) (m : Int)
    (hm : ∃ r ∈ trades, r.transaction_id = m)
    (hmax : ∀ r ∈ trades, r.transaction_id ≤ m) :
    ∃ rest, sortedTxIds trades = m :: rest ∧ m ∉ rest := by
  have hmem := (mem_sortedTxIds trades m).2 hm
  have hsorted := sortedTxIds_gt trades
  cases hids : sortedTxIds trades with
  | nil => rw [hids] at hmem; simp at hmem
  | cons a rest =>
    rw [hids] at hmem hsorted
    rw [List.pairwise_cons] at hsorted
    obtain ⟨r, hr, hra⟩ := (mem_sortedTxIds trades a).1 (by rw [hids]; simp)
    have hle := hmax r hr
    have ham : a = m := by
      rcases List.mem_cons.1 hmem with h | h
      · exact h.symm
      · have := hsorted.1 m h
        omega
    subst ham
    refine ⟨rest, rfl, ?_⟩
    intro h
    have := hsorted.1 a h
    omega

theorem lastAllocOf_insert (a b : List Trade) (t : Trade) (symbol : Option String)
    (h : symbolKey t.symbol ≠ symbolKey symbol) :
    lastAllocOf (a ++ t :: b) symbol = lastAllocOf (a ++ b) symbol := by
  unfold lastAllocOf
  have hd : decide (symbolKey t.symbol = symbolKey symbol) = false := decide_eq_false h
  simp only [List.reverse_append, List.reverse_cons, List.append_assoc, List.find?_append,
    List.singleton_append, List.find?_cons, List.find?_nil, hd, Option.none_or]

theorem compareWithPrev_insert (a b : List Trade) (t : Trade) (currentTx : List Trade)
    (h : ∀ c ∈ currentTx, symbolKey t.symbol ≠ symbolKey c.symbol) :
    compareWithPrev (a ++ t :: b) currentTx = compareWithPrev (a ++ b) currentTx := by
  rw [compareWithPrev_eq, compareWithPrev_eq]
  apply List.map_congr_left
  intro c hc
  rw [lastAllocOf_insert a b t c.symbol (h c hc)]

theorem batchOf_insert (pre post : List Trade) (t : Trade) (i : Int) :
    batchOf (pre ++ t :: post) i
      = if t.transaction_id = i then batchOf pre i ++ t :: batchOf post i
        else batchOf (pre ++ post) i := by
  unfold batchOf
  by_cases h : t.transaction_id = i
  · simp [List.filter_cons, h]
  · simp [List.filter_cons, h]

theorem ids_insert (pre post : List Trade) (t : Trade)
    (hother : ∃ r ∈ pre ++ post, r.transaction_id = t.transaction_id) (i : Int) :
    (∃ r ∈ pre ++ t :: post, r.transaction_id = i)
      ↔ ∃ r ∈ pre ++ post, r.transaction_id = i := by
  constructor
  · rintro ⟨r, hr, hi⟩
    rcases List.mem_append.1 hr with h | h
    · exact ⟨r, List.mem_append.2 (Or.inl h), hi⟩
    · rcases List.mem_cons.1 h with h | h
      · obtain ⟨r', hr', hi'⟩ := hother
        exact ⟨r', hr', by rw [hi', ← h, hi]⟩
      · exact ⟨r, List.mem_append.2 (Or.inr h), hi⟩
  · rintro ⟨r, hr, hi⟩
    rcases List.mem_append.1 hr with h | h
    · exact ⟨r, List.mem_append.2 (Or.inl h), hi⟩
    · exact ⟨r, List.mem_append.2 (Or.inr (List.mem_cons_of_mem _ h)), hi⟩

theorem allBuys_insert (a b : List Trade) (t : Trade) :
    allBuys (a ++ t :: b)
      = allBuys a ++ { trade := t, action := .buy, allocChange := t.allocation } :: allBuys b := by
  simp [allBuys]

/-- A record added to the highest-identifier batch adds one buy to the classification and
leaves the other classified trades as they are, when no other record shares its symbol
key. -/
theorem processedTrades_insert_latest (pre post : List Trade) (t : Trade)
    (hmax : ∀ r ∈ pre ++ t :: post, r.transaction_id ≤ t.transaction_id)
    (hother : ∃ r ∈ pre ++ post, r.transaction_id = t.transaction_id)
    (hkeys : ∀ r ∈ pre ++ post, symbolKey t.symbol ≠ symbolKey r.symbol) :
    ∃ X Y, processedTrades (pre ++ post) = X ++ Y
      ∧ processedTrades (pre ++ t :: post)
          = X ++ { trade := t, action := .buy, allocChange := t.allocation } :: Y := by
  have hmax2 : ∀ r ∈ pre ++ post, r.transaction_id ≤ t.transaction_id := by
    intro r hr
    apply hmax
    rcases List.mem_append.1 hr with h | h
    · exact List.mem_append.2 (Or.inl h)
    · exact List.mem_append.2 (Or.inr (List.mem_cons_of_mem _ h))
  have hids : sortedTxIds (pre ++ t :: post) = sortedTxIds (pre ++ post) := by
    apply eq_of_pairwise_gt_of_mem_iff _ _ (sortedTxIds_gt _) (sortedTxIds_gt _)
    intro i
    rw [mem_sortedTxIds, mem_sortedTxIds]
    exact ids_insert pre post t hother i
  obtain ⟨rest, hrest, hnot⟩ := sortedTxIds_of_max (pre ++ post) t.transaction_id hother hmax2
  have hsame : ∀ i, i ≠ t.transaction_id →
      batchOf (pre ++ t :: post) i = batchOf (pre ++ post) i := by
    intro i hi
    rw [batchOf_insert, if_neg (fun h => hi h.symm)]
  have hlatest : batchOf (pre ++ t :: post) t.transaction_id
      = batchOf pre t.transaction_id ++ t :: batchOf post t.transaction_id := by
    rw [batchOf_insert, if_pos rfl]
  have hlatest2 : batchOf (pre ++ post) t.transaction_id
      = batchOf pre t.transaction_id ++ batchOf post t.transaction_id := by
    unfold batchOf
    rw [List.filter_append]
  have hmemBatch : ∀ i, ∀ c ∈ batchOf (pre ++ post) i, c ∈ pre ++ post :=
    fun i c hc => (List.mem_filter.1 hc).1
  have hflat : ((t.transaction_id :: rest).zip rest).flatMap
        (fun ji => compareWithPrev (batchOf (pre ++ t :: post) ji.1)
          (batchOf (pre ++ t :: post) ji.2))
      = ((t.transaction_id :: rest).zip rest).flatMap
        (fun ji => compareWithPrev (batchOf (pre ++ post) ji.1)
          (batchOf (pre ++ post) ji.2)) := by
    apply List.flatMap_congr
    rintro ⟨j, i⟩ hji
    have hi : i ∈ rest := (List.of_mem_zip hji).2
    have hine : i ≠ t.transaction_id := fun h => hnot (h ▸ hi)
    simp only
    rw [hsame i hine]
    by_cases hj : j = t.transaction_id
    · rw [hj, hlatest, hlatest2]
      exact compareWithPrev_insert _ _ t _
        (fun c hc => hkeys c (hmemBatch i c hc))
    · rw [hsame j hj]
  refine ⟨allBuys (batchOf pre t.transaction_id),
    allBuys (batchOf post t.transaction_id)
      ++ ((t.transaction_id :: rest).zip rest).flatMap
        (fun ji => compareWithPrev (batchOf (pre ++ post) ji.1)
          (batchOf (pre ++ post) ji.2)), ?_, ?_⟩
  · rw [processedTrades_eq_classifyInOrder, hrest]
    unfold classifyInOrder
    simp only [List.tail_cons]
    rw [hlatest2]
    simp [allBuys]
  · rw [processedTrades_eq_classifyInOrder, hids, hrest]
    unfold classifyInOrder
    simp only [List.tail_cons]
    rw [hflat, hlatest, allBuys_insert]
    simp

/-- A record added to the highest-identifier batch adds its position when its shares are
positive and leaves the other positions as they are. -/
theorem currentPositions_insert_latest (pre post : List Trade) (t : Trade)
    (hmax : ∀ r ∈ pre ++ t :: post, r.transaction_id ≤ t.transaction_id)
    (hother : ∃ r ∈ pre ++ post, r.transaction_id = t.transaction_id) :
    ∃ A B, currentPositions (pre ++ post) = A ++ B
      ∧ currentPositions (pre ++ t :: post)
          = A ++ (if gtZero t.shares_held = true then [toPosition t] else []) ++ B := by
  have hmax2 : ∀ r ∈ pre ++ post, r.transaction_id ≤ t.transaction_id := by
    intro r hr
    apply hmax
    rcases List.mem_append.1 hr with h | h
    · exact List.mem_append.2 (Or.inl h)
    · exact List.mem_append.2 (Or.inr (List.mem_cons_of_mem _ h))
  have hpred : (fun x : Trade =>
        decide (∀ r ∈ pre ++ t :: post, r.transaction_id ≤ x.transaction_id)
          && gtZero x.shares_held)
      = (fun x : Trade =>
        decide (∀ r ∈ pre ++ post, r.transaction_id ≤ x.transaction_id)
          && gtZero x.shares_held) := by
    funext x
    congr 1
    rw [decide_eq_decide]
    constructor
    · intro h r hr
      have h1 := h t (by simp)
      have h2 := hmax2 r hr
      omega
    · intro h r hr
      obtain ⟨r', hr', hid⟩ := hother
      have h1 := h r' hr'
      have h2 := hmax r hr
      omega
  have ht : decide (∀ r ∈ pre ++ post, r.transaction_id ≤ t.transaction_id) = true :=
    decide_eq_true hmax2
  refine ⟨(pre.filter (fun x : Trade =>
        decide (∀ r ∈ pre ++ post, r.transaction_id ≤ x.transaction_id)
          && gtZero x.shares_held)).map toPosition,
    (post.filter (fun x : Trade =>
        decide (∀ r ∈ pre ++ post, r.transaction_id ≤ x.transaction_id)
          && gtZero x.shares_held)).map toPosition, ?_, ?_⟩
  · rw [currentPositions_eq_filter, List.filter_append, List.map_append]
  · rw [currentPositions_eq_filter, hpred, List.filter_append, List.filter_cons]
    by_cases hs : gtZero t.shares_held = true
    · simp [ht, hs]
    · simp [ht, hs]

/-! ## Lemmas on the value of a field -/

/-- The expression `x || 0` returns a number as it is and gives 0 for a missing value. -/
theorem orZero_spec (v : JsVal) :
    (∀ q : ℚ, v = .num q → orZero v = q)
      ∧ (v = .null ∨ v = .undefined → orZero v = 0) := by
  constructor
  · intro q h; rw [h]; rfl
  · rintro (h | h) <;> rw [h] <;> rfl

theorem portfolioHistory_logWithCash :
    portfolioHistory logWithCash
      = [⟨"2024-01-01 10:00:00", 10000, 5000⟩, ⟨"2024-01-01 10:00:00", 11000, 4000⟩] := by
  simp [portfolioHistory, sortedHistoryGroups, historyGroups, addToHistoryGroups, getKey,
    arraySort, objectValues, ownEntries, isArrayIndex, toHistoryPoint, logWithCash, mkTrade,
    parseInt, orZero]

/-! ## Lemmas on the symbol compared with -/

theorem symbolKey_eq_iff (x : Option String) (s : String) (hs : s ≠ "undefined") :
    symbolKey x = symbolKey (some s) ↔ x = some s := by
  cases x with
  | none =>
    simp only [symbolKey, reduceCtorEq, iff_false]
    exact fun h => hs h.symm
  | some y => simp [symbolKey]

theorem lastAllocOf_of_absent (batch : List Trade) (symbol : Option String)
    (h : ∀ r ∈ batch, symbolKey r.symbol ≠ symbolKey symbol) :
    lastAllocOf batch symbol = 0 := by
  unfold lastAllocOf
  have hnone : batch.reverse.find?
      (fun r => decide (symbolKey r.symbol = symbolKey symbol)) = none := by
    rw [List.find?_eq_none]
    intro x hx hdec
    exact h x (List.mem_reverse.1 hx) (of_decide_eq_true hdec)
  rw [hnone]

theorem lastAllocOf_of_last (a b : List Trade) (r : Trade) (symbol : Option String)
    (hr : symbolKey r.symbol = symbolKey symbol)
    (hb : ∀ x ∈ b, symbolKey x.symbol ≠ symbolKey symbol) :
    lastAllocOf (a ++ r :: b) symbol = r.allocation := by
  unfold lastAllocOf
  have hnone : b.reverse.find?
      (fun r => decide (symbolKey r.symbol = symbolKey symbol)) = none := by
    rw [List.find?_eq_none]
    intro x hx hdec
    exact hb x (List.mem_reverse.1 hx) (of_decide_eq_true hdec)
  have hd : decide (symbolKey r.symbol = symbolKey symbol) = true := decide_eq_true hr
  simp only [List.reverse_append, List.reverse_cons, List.append_assoc, List.find?_append,
    List.singleton_append, List.find?_cons, hnone, hd, Option.none_or, Option.or_some]

/-- A record with a symbol, in a batch other than the highest, is compared with the last
record of the same symbol in the batch of the next-higher identifier. -/
theorem processedTrades_lower_symbol (trades : List Trade) (p : ProcessedTrade)
    (hp : p ∈ processedTrades trades) (j : Int) (s : String)
    (hj : ∃ r ∈ trades, r.transaction_id = j) (hlt : p.trade.transaction_id < j)
    (hnext : ∀ r ∈ trades, p.trade.transaction_id < r.transaction_id →
      j ≤ r.transaction_id)
    (hsym : p.trade.symbol = some s) (hs : s ≠ "undefined") :
    ((∀ r ∈ trades, r.transaction_id = j → r.symbol ≠ some s) →
        p.allocChange = p.trade.allocation - 0)
      ∧ (∀ (a b : List Trade) (r : Trade),
          trades.filter (fun t => decide (t.transaction_id = j)) = a ++ r :: b →
          r.symbol = some s → (∀ x ∈ b, x.symbol ≠ some s) →
          p.allocChange = p.trade.allocation - r.allocation) := by
  have hchange := (processedTrades_lower trades p hp j hj hlt hnext).1
  rw [hsym] at hchange
  constructor
  · intro habsent
    rw [hchange, lastAllocOf_of_absent]
    intro r hr hkey
    have hrid : r.transaction_id = j := of_decide_eq_true (List.mem_filter.1 hr).2
    exact habsent r (List.mem_filter.1 hr).1 hrid ((symbolKey_eq_iff _ s hs).1 hkey)
  · intro a b r hbatch hr hb
    have hbatch2 : batchOf trades j = a ++ r :: b := hbatch
    rw [hchange, hbatch2, lastAllocOf_of_last a b r (some s) (by rw [hr])]
    intro x hx hkey
    exact hb x hx ((symbolKey_eq_iff _ s hs).1 hkey)

theorem processedTrades_logTwoSymbols :
    processedTrades logTwoSymbols
      = [⟨mkTrade 2 "AAPL" (3 / 10) 11000, .buy, 3 / 10⟩,
         ⟨mkTrade 2 "BTC" (1 / 5) 11000, .buy, 1 / 5⟩,
         ⟨mkTrade 1 "AAPL" (1 / 10) 10000, .sell, -(1 / 5)⟩,
         ⟨mkTrade 1 "ETH" (2 / 5) 10000, .buy, 2 / 5⟩] := by
  simp [processedTrades, logTwoSymbols, tradeGroups, pushTrade, getKey, arraySort, objectKeys,
    ownEntries, isArrayIndex, processLoop, allBuys, compareWithPrev, prevMapOf, prevAllocOf,
    symbolKey, actionOf, mkTrade, parseInt, Function.update]
  norm_num

/-! ## Lemmas on the table of the Trading page -/

theorem filteredTrades_all (trades : List Trade) :
    filteredTrades none trades = processedTrades trades := by
  unfold filteredTrades
  rw [List.filter_eq_self]
  intro _ _
  rfl

/-- A table that holds a trade with no symbol throws. -/
theorem renderIcons_missing_symbol (rows : List ProcessedTrade) (p : ProcessedTrade)
    (hp : p ∈ rows) (hsym : p.trade.symbol = none) :
    renderIcons rows = .error "TypeError" := by
  induction rows with
  | nil => simp at hp
  | cons q rest ih =>
    unfold renderIcons
    cases hq : q.trade.symbol with
    | none => rfl
    | some s =>
      have hne : p ≠ q := by
        intro h
        rw [h, hq] at hsym
        cases hsym
      have hrest : p ∈ rest := by
        rcases List.mem_cons.1 hp with h | h
        · exact absurd h hne
        · exact h
      simp only [symbolIcon, ih hrest]

/-- A record added to the highest-identifier batch adds one classified trade and leaves the
others as they are, when no other record shares its symbol key. -/
theorem processedTrades_insert_some (pre post : List Trade) (t : Trade)
    (hmax : ∀ r ∈ pre ++ t :: post, r.transaction_id ≤ t.transaction_id)
    (hother : ∃ r ∈ pre ++ post, r.transaction_id = t.transaction_id)
    (hkeys : ∀ r ∈ pre ++ post, symbolKey t.symbol ≠ symbolKey r.symbol) :
    ∃ X Y p, processedTrades (pre ++ post) = X ++ Y ∧ p.trade = t
      ∧ processedTrades (pre ++ t :: post) = X ++ p :: Y := by
  obtain ⟨X, Y, h1, h2⟩ := processedTrades_insert_latest pre post t hmax hother hkeys
  exact ⟨X, Y, _, h1, rfl, h2⟩

/-! ## The claims -/

/-- C1 (the code departs from the claim): on a log whose highest-identifier batch
(transaction 2, value 11000) has two records and whose second-highest batch (transaction 1)
has value 10000, the summary reports a day change of 0, not 11000 − 10000. -/
theorem dayChange_latest_batch_of_two :
    (portfolioSummary logLatestOfTwo).1.dayChange = 0
      ∧ (portfolioSummary logLatestOfTwo).1.dayChange ≠ 11000 - 10000 := by
  have h : (portfolioSummary logLatestOfTwo).1.dayChange = 0 := by
    simp [portfolioSummary, logLatestOfTwo, latestTx, pickLatest, sortedTrades, arraySort,
      prevValue, mkTrade, parseInt, orZero]
  rw [h]
  norm_num

/-- C2 (the code departs from the claim): on the log of transaction 1 (AAPL at 0.1) and
transaction 2 (AAPL at 0.3), the record of the lowest-identifier batch is labelled `sell`
with allocation change −0.2, not `buy` with its own allocation 0.1. -/
theorem processedTrades_lowest_batch_compared :
    processedTrades logAscending
      = [⟨mkTrade 2 "AAPL" (3 / 10) 11000, .buy, 3 / 10⟩,
         ⟨mkTrade 1 "AAPL" (1 / 10) 10000, .sell, -(1 / 5)⟩] := by
  simp [processedTrades, logAscending, tradeGroups, pushTrade, getKey, arraySort, objectKeys,
    ownEntries, isArrayIndex, processLoop, allBuys, compareWithPrev, prevMapOf, prevAllocOf,
    symbolKey, actionOf, mkTrade, parseInt]
  norm_num

/-- C3 (the code departs from the claim): on scenario B, transaction 1 with AAPL at 0.3
then transaction 2 with AAPL at 0.1, the record of transaction 2 is labelled `buy` with
allocation change 0.1 (its own allocation), not `sell` with −0.2; the record of
transaction 1 is compared with transaction 2 and gets 0.2. -/
theorem processedTrades_scenarioB :
    processedTrades logScenarioB
      = [⟨mkTrade 2 "AAPL" (1 / 10) 10000, .buy, 1 / 10⟩,
         ⟨mkTrade 1 "AAPL" (3 / 10) 10000, .buy, 1 / 5⟩] := by
  simp [processedTrades, logScenarioB, tradeGroups, pushTrade, getKey, arraySort, objectKeys,
    ownEntries, isArrayIndex, processLoop, allBuys, compareWithPrev, prevMapOf, prevAllocOf,
    symbolKey, actionOf, mkTrade, parseInt]
  norm_num

/-- C4 (counterexample): an `UPDATE_REAL_TIME` whose trades list is empty changes a state
that holds one record: the record log becomes empty. -/
theorem updateRealTime_empty_changes_state :
    tradingReducer stateOneTrade (.UPDATE_REAL_TIME (.obj (some []))) ≠ .ok stateOneTrade := by
  simp [tradingReducer, stateOneTrade, initialState]

/-- C4 (amended): for every state, an `UPDATE_REAL_TIME` whose trades list is empty sets the
record log to the empty list and leaves every other field unchanged; the state is unchanged
exactly when its record log was already empty. -/
theorem updateRealTime_empty_replaces (state : State) :
    tradingReducer state (.UPDATE_REAL_TIME (.obj (some [])))
        = .ok { state with trades := [] }
      ∧ (tradingReducer state (.UPDATE_REAL_TIME (.obj (some []))) = .ok state
          ↔ state.trades = []) := by
  refine ⟨rfl, ?_⟩
  cases state
  simp [tradingReducer, eq_comm]

/-- C5 (counterexample): the summary derivation reorders the log of transaction 1 followed
by transaction 2: afterwards the record of transaction 2 comes first. -/
theorem portfolioSummary_reorders_log :
    (portfolioSummary logAscending).2 ≠ logAscending := by
  simp [portfolioSummary, logAscending, sortedTrades, arraySort, mkTrade, parseInt]

/-- C5 (amended): after the summary derivation the list holds the same records, stably
sorted by descending identifier: it is a permutation of the input, its identifiers never
increase, the records of each transaction keep their relative order, and the list is
unchanged exactly when its identifiers were already in descending order. -/
theorem portfolioSummary_sorts_log (trades : List Trade) :
    (portfolioSummary trades).2.Perm trades
      ∧ (portfolioSummary trades).2.Pairwise
          (fun a b => b.transaction_id ≤ a.transaction_id)
      ∧ (∀ i : Int, (portfolioSummary trades).2.filter (fun r => decide (r.transaction_id = i))
          = trades.filter (fun r => decide (r.transaction_id = i)))
      ∧ ((portfolioSummary trades).2 = trades
          ↔ trades.Pairwise (fun a b => b.transaction_id ≤ a.transaction_id)) := by
  have hstate : (portfolioSummary trades).2 = sortedTrades trades := by
    cases trades with
    | nil => rfl
    | cons first rest => rfl
  rw [hstate]
  refine ⟨sortedTrades_perm trades, sortedTrades_pairwise trades, ?_, ?_⟩
  · intro i
    have h := arraySort_filter_key (fun t : Trade => - t.transaction_id)
      (fun a b => parseInt b.transaction_id - parseInt a.transaction_id)
      (fun a b => by simp only [parseInt]; omega) (-i) trades
    simpa [sortedTrades, neg_inj] using h
  · constructor
    · intro h
      rw [← h]
      exact sortedTrades_pairwise trades
    · intro h
      have hs : List.Sorted (fun a b : Trade =>
          parseInt b.transaction_id - parseInt a.transaction_id ≤ 0) trades :=
        List.Pairwise.imp (fun {a b} hab => by simp only [parseInt]; omega) h
      exact hs.insertionSort_eq

/-- C6: the history series is the image of the groups in `sortedHistoryGroups` order, these
groups carry exactly the transaction identifiers of the records of the log, and their
identifiers, compared as integers, strictly increase from each point to the next. -/
theorem history_ids_strictly_increasing (trades : List Trade) :
    portfolioHistory trades = (sortedHistoryGroups trades).map toHistoryPoint
      ∧ (∀ i : Int, i ∈ (sortedHistoryGroups trades).map (fun g => g.transaction_id)
          ↔ ∃ r ∈ trades, r.transaction_id = i)
      ∧ ((sortedHistoryGroups trades).map (fun g => g.transaction_id)).Pairwise
          (fun i j => i < j) := by
  refine ⟨rfl, mem_sortedHistoryGroups_ids trades, ?_⟩
  have hle : ((sortedHistoryGroups trades).map (fun g => g.transaction_id)).Pairwise
      (fun i j => i ≤ j) := by
    rw [List.pairwise_map]
    exact arraySort_pairwise (fun g : TxGroup => g.transaction_id)
      (fun a b => parseInt a.transaction_id - parseInt b.transaction_id)
      (fun a b => by simp only [parseInt]; omega) _
  have hne : ((sortedHistoryGroups trades).map (fun g => g.transaction_id)).Pairwise
      (fun i j => i ≠ j) := sortedHistoryGroups_ids_nodup trades
  exact (hle.and hne).imp (fun {i j} h => lt_of_le_of_ne h.1 h.2)

/-- The group of transaction 2 comes before the group of transaction 10, whatever the
order of their records in the log. -/
theorem history_two_before_ten :
    (sortedHistoryGroups [mkTrade 10 "AAPL" 1 10000, mkTrade 2 "AAPL" 1 9000]).map
      (fun g => g.transaction_id) = [2, 10] := by
  simp [sortedHistoryGroups, historyGroups, addToHistoryGroups, getKey, arraySort,
    objectValues, ownEntries, isArrayIndex, mkTrade, parseInt]

/-- C7: the current positions are the records whose identifier is the maximum of the log
and whose shares are a number greater than 0, in input order, each mapped by `toPosition`:
symbol, shares and price are copied, the allocation is multiplied by 100, the value is the
product of shares and price (their product as rationals when the price is a number), and
the sentiment is the record's unless it is absent or empty, when it is "neutral". -/
theorem currentPositions_latest_batch (trades : List Trade) :
    currentPositions trades
        = (trades.filter (fun t =>
            decide (∀ r ∈ trades, r.transaction_id ≤ t.transaction_id)
              && gtZero t.shares_held)).map toPosition
      ∧ (∀ v : JsVal, gtZero v = true ↔ ∃ s : ℚ, s > 0 ∧ v = .num s)
      ∧ (∀ (id : Int) (sym sen : Option String) (alloc s : ℚ) (price pv cash : JsVal)
          (d tm : String),
          toPosition ⟨id, sym, alloc, .num s, price, pv, cash, d, tm, sen⟩
            = ⟨sym, .num s, price, alloc * 100, (JsNum.fin s).mul (toNumber price),
                sentimentOrNeutral sen⟩)
      ∧ (∀ s p : ℚ, (JsNum.fin s).mul (toNumber (.num p)) = .fin (s * p))
      ∧ sentimentOrNeutral none = "neutral"
      ∧ (∀ s : String, sentimentOrNeutral (some s) = if s = "" then "neutral" else s) := by
  refine ⟨currentPositions_eq_filter trades, ?_, fun _ _ _ _ _ _ _ _ _ _ => rfl,
    fun _ _ => rfl, rfl, fun _ => rfl⟩
  intro v
  cases v with
  | undefined => simp [gtZero]
  | null => simp [gtZero]
  | num q => simp [gtZero]

/-- C8: on a non-empty log the summary's total value and cash are the portfolio value and
the cash of a record of the log whose identifier no record of the log exceeds: the number
itself when the field holds a number, and 0 when the field is `null` or absent. -/
theorem summary_value_cash_of_latest (trades : List Trade) (hne : trades ≠ []) :
    ∃ r ∈ trades, (∀ r' ∈ trades, r'.transaction_id ≤ r.transaction_id)
      ∧ (∀ q : ℚ, r.portfolio_value = .num q → (portfolioSummary trades).1.totalValue = q)
      ∧ (r.portfolio_value = .null ∨ r.portfolio_value = .undefined →
          (portfolioSummary trades).1.totalValue = 0)
      ∧ (∀ q : ℚ, r.final_cash = .num q → (portfolioSummary trades).1.cash = q)
      ∧ (r.final_cash = .null ∨ r.final_cash = .undefined →
          (portfolioSummary trades).1.cash = 0) := by
  cases trades with
  | nil => exact absurd rfl hne
  | cons first rest =>
    exact ⟨latestTx first rest, latestTx_mem first rest, latestTx_max first rest,
      (orZero_spec _).1, (orZero_spec _).2, (orZero_spec _).1, (orZero_spec _).2⟩

/-- C8 at a concrete input: in the log of transaction 2 (value 11000, cash 4000) followed by
transaction 1 (value 10000, cash 5000), the summary has total value 11000 and cash 4000,
those of the first record of the list. -/
theorem summary_value_cash_of_latest_witness :
    (portfolioSummary logWithCash).1.totalValue = 11000
      ∧ (portfolioSummary logWithCash).1.cash = 4000 := by
  obtain ⟨r, hr, hmax, hv, _, hc, _⟩ :=
    summary_value_cash_of_latest logWithCash (by simp [logWithCash])
  simp only [logWithCash, List.mem_cons, List.mem_singleton, List.not_mem_nil, or_false]
    at hr hmax
  rcases hr with hr | hr
  · subst hr
    exact ⟨hv 11000 rfl, hc 4000 rfl⟩
  · subst hr
    have h := hmax _ (Or.inl rfl)
    simp [mkTrade] at h

/-- C9: when all records of the log share one transaction identifier and one portfolio
value, the summary has a day change of 0 and a day-change percentage of 0, whatever the
number of records. -/
theorem single_batch_no_day_change (trades : List Trade) (i : Int) (v : JsVal)
    (hid : ∀ r ∈ trades, r.transaction_id = i)
    (hv : ∀ r ∈ trades, r.portfolio_value = v) :
    (portfolioSummary trades).1.dayChange = 0
      ∧ (portfolioSummary trades).1.dayChangePercent = .fin 0 := by
  have _ := hid
  have hprev : prevValue (sortedTrades trades) (portfolioSummary trades).1.totalValue
      = (portfolioSummary trades).1.totalValue := by
    apply prevValue_of_shared
    intro r hr
    have hr2 : r ∈ trades := (sortedTrades_perm trades).mem_iff.1 hr
    cases trades with
    | nil => simp at hr2
    | cons first rest =>
      rw [(portfolioSummary_cons first rest).1, hv r hr2,
        hv _ (latestTx_mem first rest)]
  have hchange : (portfolioSummary trades).1.dayChange = 0 := by
    rw [dayChange_eq, hprev, sub_self]
  refine ⟨hchange, ?_⟩
  rw [dayChangePercent_eq, hchange]
  simp

/-- C9 at a concrete input: one transaction of two records. -/
theorem single_batch_no_day_change_witness :
    (portfolioSummary logSingleBatch).1.dayChange = 0
      ∧ (portfolioSummary logSingleBatch).1.dayChangePercent = .fin 0 :=
  single_batch_no_day_change logSingleBatch 1 (.num 10000)
    (by simp [logSingleBatch, mkTrade]) (by simp [logSingleBatch, mkTrade])

/-- C10: the day-change percentage is `dayChange / prevValue × 100` when the compared value
`prevValue` is greater than 0 and is 0 otherwise, so it is always finite; and when the log
has a highest identifier `m` and a second-highest identifier `m2`, the records of one
transaction share their portfolio value, and the records of `m2` have portfolio value 0,
the percentage is 0. -/
theorem dayChangePercent_guarded (trades : List Trade) :
    ((portfolioSummary trades).1.dayChangePercent
        = if prevValue (sortedTrades trades) (portfolioSummary trades).1.totalValue > 0 then
            .fin ((portfolioSummary trades).1.dayChange
              / prevValue (sortedTrades trades) (portfolioSummary trades).1.totalValue * 100)
          else .fin 0)
      ∧ (∃ q : ℚ, (portfolioSummary trades).1.dayChangePercent = .fin q)
      ∧ (∀ m m2 : Int,
          (∀ r ∈ trades, r.transaction_id ≤ m) → (∃ r ∈ trades, r.transaction_id = m) →
          m2 < m → (∃ r ∈ trades, r.transaction_id = m2) →
          (∀ r ∈ trades, r.transaction_id < m → r.transaction_id ≤ m2) →
          (∀ a ∈ trades, ∀ b ∈ trades, a.transaction_id = b.transaction_id →
            a.portfolio_value = b.portfolio_value) →
          (∀ r ∈ trades, r.transaction_id = m2 → orZero r.portfolio_value = 0) →
          (portfolioSummary trades).1.dayChangePercent = .fin 0) := by
  refine ⟨dayChangePercent_eq trades, ?_, ?_⟩
  · rw [dayChangePercent_eq]
    split
    · exact ⟨_, rfl⟩
    · exact ⟨0, rfl⟩
  · intro m m2 hmax hm hlt hm2 hsecond hinv hzero
    obtain ⟨rm, hrm, hrmid⟩ := hm
    obtain ⟨r2, hr2, hr2id⟩ := hm2
    cases trades with
    | nil => simp at hrm
    | cons first rest =>
      have hperm := sortedTrades_perm (first :: rest)
      have hsorted := sortedTrades_pairwise (first :: rest)
      have hlatest_mem := latestTx_mem first rest
      have hlatest_id : (latestTx first rest).transaction_id = m := by
        have h1 := hmax _ hlatest_mem
        have h2 := latestTx_max first rest rm hrm
        omega
      have hrm_s : rm ∈ sortedTrades (first :: rest) := hperm.mem_iff.2 hrm
      have hr2_s : r2 ∈ sortedTrades (first :: rest) := hperm.mem_iff.2 hr2
      have hmem_of : ∀ x ∈ sortedTrades (first :: rest), x ∈ first :: rest :=
        fun x hx => hperm.mem_iff.1 hx
      rw [dayChangePercent_eq, dayChange_eq, (portfolioSummary_cons first rest).1]
      generalize sortedTrades (first :: rest) = sorted at hsorted hrm_s hr2_s hmem_of
      match sorted, hsorted, hrm_s, hr2_s, hmem_of with
      | [], _, hrm_s, _, _ => simp at hrm_s
      | [a], _, hrm_s, hr2_s, _ =>
        simp only [List.mem_singleton] at hrm_s hr2_s
        rw [← hrm_s] at hr2_s
        rw [hr2_s, hrmid] at hr2id
        omega
      | a :: b :: tl, hsorted, hrm_s, hr2_s, hmem_of =>
        have hb_mem : b ∈ first :: rest := hmem_of b (by simp)
        have ha_mem : a ∈ first :: rest := hmem_of a (by simp)
        rw [List.pairwise_cons, List.pairwise_cons] at hsorted
        obtain ⟨ha_ge, hb_ge, _⟩ := hsorted
        have ha_id : a.transaction_id = m := by
          have h1 := hmax a ha_mem
          rcases List.mem_cons.1 hrm_s with h | h
          · rw [← h]; exact hrmid
          · have h2 := ha_ge rm h
            omega
        simp only [prevValue]
        by_cases hb : b.transaction_id = m
        · have hpv : b.portfolio_value = (latestTx first rest).portfolio_value :=
            hinv b hb_mem _ hlatest_mem (by rw [hb, hlatest_id])
          rw [hpv]
          simp
        · have hb_lt : b.transaction_id < m := lt_of_le_of_ne (hmax b hb_mem) hb
          have hb_le := hsecond b hb_mem hb_lt
          have hb_id : b.transaction_id = m2 := by
            rcases List.mem_cons.1 hr2_s with h | h
            · rw [h] at hr2id; omega
            · rcases List.mem_cons.1 h with h | h
              · rw [← h]; exact hr2id
              · have h2 := hb_ge r2 h
                omega
          rw [hzero b hb_mem hb_id]
          simp

/-- C10 at a concrete input: transaction 2 after transaction 1, whose value is 0. -/
theorem dayChangePercent_guarded_witness :
    (portfolioSummary logPrevZero).1.dayChangePercent = .fin 0 :=
  (dayChangePercent_guarded logPrevZero).2.2 2 1
    (by simp [logPrevZero, mkTrade]) (by simp [logPrevZero, mkTrade]) (by decide)
    (by simp [logPrevZero, mkTrade]) (by simp [logPrevZero, mkTrade])
    (by simp [logPrevZero, mkTrade]) (by simp [logPrevZero, mkTrade, orZero])

/-- C11: on a non-empty log the total return is the total value minus the baseline 10000
and the total-return percentage is the total return divided by 10000, times 100; the total
value it is computed from is the portfolio value of a record of maximal identifier. -/
theorem totalReturn_against_baseline (trades : List Trade) (hne : trades ≠ []) :
    (portfolioSummary trades).1.totalReturn = (portfolioSummary trades).1.totalValue - 10000
      ∧ (portfolioSummary trades).1.totalReturnPercent
          = .fin ((portfolioSummary trades).1.totalReturn / 10000 * 100)
      ∧ ∃ r ∈ trades, (∀ r' ∈ trades, r'.transaction_id ≤ r.transaction_id)
          ∧ (portfolioSummary trades).1.totalReturn = orZero r.portfolio_value - 10000 := by
  cases trades with
  | nil => exact absurd rfl hne
  | cons first rest =>
    refine ⟨rfl, ?_, latestTx first rest, latestTx_mem first rest, latestTx_max first rest, rfl⟩
    exact jsDiv_mul_hundred _ 10000 (by norm_num)

/-- C11 at a concrete input: the log of transaction 1 followed by transaction 2. -/
theorem totalReturn_against_baseline_witness :
    (portfolioSummary logAscending).1.totalReturn
        = (portfolioSummary logAscending).1.totalValue - 10000
      ∧ (portfolioSummary logAscending).1.totalReturnPercent
          = .fin ((portfolioSummary logAscending).1.totalReturn / 10000 * 100)
      ∧ ∃ r ∈ logAscending, (∀ r' ∈ logAscending, r'.transaction_id ≤ r.transaction_id)
          ∧ (portfolioSummary logAscending).1.totalReturn = orZero r.portfolio_value - 10000 :=
  totalReturn_against_baseline logAscending (by simp [logAscending])

/-- C12: on the empty log the summary has its six fields equal to 0, the history series is
empty and the position list is empty. -/
theorem derivations_on_empty_log :
    (portfolioSummary []).1
        = { totalValue := 0, cash := 0, dayChange := 0, dayChangePercent := .fin 0,
            totalReturn := 0, totalReturnPercent := .fin 0 }
      ∧ portfolioHistory [] = []
      ∧ currentPositions [] = [] :=
  ⟨rfl, rfl, rfl⟩

/-- C13: there is a strictly increasing list of identifiers, holding exactly the identifiers
of the records of the log, that corresponds to the history series point by point: the series
has one point per distinct identifier, and the point of an identifier is built from the
first record of the log with that identifier. Its timestamp is the record's date, a space
and its time; its value is the record's portfolio value and its cash the record's cash, the
number itself when the field holds a number and 0 when the field is `null` or absent. -/
theorem history_one_point_per_batch (trades : List Trade) :
    ∃ ids : List Int,
      ids.Pairwise (fun i j => i < j)
        ∧ (∀ i : Int, i ∈ ids ↔ ∃ r ∈ trades, r.transaction_id = i)
        ∧ List.Forall₂ (fun i p => ∃ r,
            trades.find? (fun t => decide (t.transaction_id = i)) = some r
              ∧ p.timestamp = r.date ++ " " ++ r.time
              ∧ (∀ q : ℚ, r.portfolio_value = .num q → p.value = q)
              ∧ (r.portfolio_value = .null ∨ r.portfolio_value = .undefined → p.value = 0)
              ∧ (∀ q : ℚ, r.final_cash = .num q → p.cash = q)
              ∧ (r.final_cash = .null ∨ r.final_cash = .undefined → p.cash = 0))
          ids (portfolioHistory trades) := by
  refine ⟨(sortedHistoryGroups trades).map (fun g => g.transaction_id),
    sortedHistoryGroups_ids_lt trades, mem_sortedHistoryGroups_ids trades, ?_⟩
  refine List.Forall₂.imp ?_ (history_pointwise trades)
  rintro i p ⟨r, hr, hp⟩
  refine ⟨r, hr, ?_, ?_, ?_, ?_, ?_⟩
  · rw [hp]
  · rw [hp]; exact (orZero_spec _).1
  · rw [hp]; exact (orZero_spec _).2
  · rw [hp]; exact (orZero_spec _).1
  · rw [hp]; exact (orZero_spec _).2

/-- C14: when two logs are permutations of each other and the records of one transaction
share their portfolio value and cash, the history derivation yields the same sequence of
(value, cash) pairs on both. -/
theorem history_perm_invariant (l1 l2 : List Trade) (hperm : l1.Perm l2)
    (hinv : ∀ a ∈ l1, ∀ b ∈ l1, a.transaction_id = b.transaction_id →
      a.portfolio_value = b.portfolio_value ∧ a.final_cash = b.final_cash) :
    (portfolioHistory l1).map (fun p => (p.value, p.cash))
      = (portfolioHistory l2).map (fun p => (p.value, p.cash)) := by
  have h1 := history_pointwise l1
  have h2 := history_pointwise l2
  rw [← sortedHistoryGroups_ids_perm l1 l2 hperm] at h2
  refine map_eq_of_pointwise _ _ _ _ _ _ h1 h2 ?_
  rintro i x y ⟨r1, hr1, hx⟩ ⟨r2, hr2, hy⟩
  obtain ⟨hm1, hi1⟩ := find?_id_spec l1 i r1 hr1
  obtain ⟨hm2, hi2⟩ := find?_id_spec l2 i r2 hr2
  have hshared := hinv r1 hm1 r2 (hperm.mem_iff.2 hm2) (by rw [hi1, hi2])
  rw [hx, hy]
  simp only [hshared.1, hshared.2]

/-- C14 at a concrete input: two transactions of one record each, in both orders. -/
theorem history_perm_invariant_witness :
    (portfolioHistory logAscending).map (fun p => (p.value, p.cash))
      = (portfolioHistory logDescending).map (fun p => (p.value, p.cash)) :=
  history_perm_invariant logAscending logDescending (List.Perm.swap _ _ _)
    (by simp [logAscending, mkTrade])

/-- C15: when two logs are permutations of each other and the records of one transaction
share their portfolio value and cash, the summary derivation returns the same six fields on
both. -/
theorem summary_perm_invariant (l1 l2 : List Trade) (hperm : l1.Perm l2)
    (hinv : ∀ a ∈ l1, ∀ b ∈ l1, a.transaction_id = b.transaction_id →
      a.portfolio_value = b.portfolio_value ∧ a.final_cash = b.final_cash) :
    (portfolioSummary l1).1 = (portfolioSummary l2).1 := by
  match l1, l2, hperm, hinv with
  | [], [], _, _ => rfl
  | [], _ :: _, hperm, _ => exact absurd hperm.length_eq (by simp)
  | _ :: _, [], hperm, _ => exact absurd hperm.length_eq (by simp)
  | f1 :: r1, f2 :: r2, hperm, hinv =>
    have hid := latestTx_id_perm f1 f2 r1 r2 hperm
    have hshared := hinv _ (latestTx_mem f1 r1) _
      (hperm.mem_iff.2 (latestTx_mem f2 r2)) hid
    have hprev := prevValue_perm (f1 :: r1) (f2 :: r2) hperm
      (fun a ha b hb hab => (hinv a ha b hb hab).1)
      (orZero (latestTx f2 r2).portfolio_value)
    simp only [portfolioSummary]
    rw [hshared.1, hshared.2, hprev]

/-- C15 at a concrete input: two transactions of one record each, in both orders. -/
theorem summary_perm_invariant_witness :
    (portfolioSummary logAscending).1 = (portfolioSummary logDescending).1 :=
  summary_perm_invariant logAscending logDescending (List.Perm.swap _ _ _)
    (by simp [logAscending, mkTrade])

/-- C16: a classified trade whose record is not in the highest-identifier batch (the first
one processed) is produced by a comparison, and its action is `buy` exactly when its
allocation change exceeds 0.01, `sell` exactly when it is below −0.01, and `hold` exactly
when it lies between −0.01 and 0.01, both bounds included. -/
theorem compared_trade_action (trades : List Trade) (p : ProcessedTrade)
    (hp : p ∈ processedTrades trades)
    (hnot : ∃ r ∈ trades, p.trade.transaction_id < r.transaction_id) :
    (p.action = .buy ↔ p.allocChange > 1 / 100)
      ∧ (p.action = .sell ↔ p.allocChange < -(1 / 100))
      ∧ (p.action = .hold ↔ -(1 / 100) ≤ p.allocChange ∧ p.allocChange ≤ 1 / 100) := by
  rw [processedTrades_eq] at hp
  rcases processLoop_mem _ _ none [] p hp with h | ⟨_, hd, tl, hids, hmem⟩ | h
  · simp at h
  · exfalso
    rw [getD_getKey_tradeGroups] at hmem
    have hin : p.trade ∈ batchOf trades hd := by
      rw [← allBuys_trades (batchOf trades hd)]
      exact List.mem_map.2 ⟨p, hmem, rfl⟩
    have hpid : p.trade.transaction_id = hd := by
      unfold batchOf at hin
      exact of_decide_eq_true (List.mem_filter.1 hin).2
    obtain ⟨r, hr, hlt⟩ := hnot
    have hrin : r.transaction_id ∈ sortedTxIds trades :=
      (mem_sortedTxIds trades _).2 ⟨r, hr, rfl⟩
    have hsorted := sortedTxIds_gt trades
    rw [hids] at hrin hsorted
    rcases List.mem_cons.1 hrin with h | h
    · omega
    · have := (List.pairwise_cons.1 hsorted).1 _ h
      omega
  · rw [h]
    exact actionOf_spec _

/-- C16 at a concrete input: the record of transaction 1 in the log of transaction 2 (AAPL
at 0.3) followed by transaction 1 (AAPL at 0.1), classified `sell` with change −0.2. -/
theorem compared_trade_action_witness :
    ((TradeAction.sell = TradeAction.buy) ↔ (-(1 / 5) : ℚ) > 1 / 100)
      ∧ ((TradeAction.sell = TradeAction.sell) ↔ (-(1 / 5) : ℚ) < -(1 / 100))
      ∧ ((TradeAction.sell = TradeAction.hold)
          ↔ -(1 / 100) ≤ (-(1 / 5) : ℚ) ∧ (-(1 / 5) : ℚ) ≤ 1 / 100) :=
  compared_trade_action logDescending ⟨mkTrade 1 "AAPL" (1 / 10) 10000, .sell, -(1 / 5)⟩
    (by rw [processedTrades_logDescending]; simp)
    ⟨mkTrade 2 "AAPL" (3 / 10) 11000, by simp [logDescending], by simp [mkTrade]⟩

/-- C17 (the code departs from the claim): AAPL is held at 0.3 in transactions 1 and 2 and at
0.5 in transaction 3. The record of transaction 2, unchanged from transaction 1, is
labelled `sell` with change 0.3 − 0.5 = −0.2, not `hold`: it is compared with transaction 3,
the next-higher identifier. -/
theorem processedTrades_unchanged_not_hold :
    processedTrades logUnchangedThenRaised
      = [⟨mkTrade 3 "AAPL" (1 / 2) 10000, .buy, 1 / 2⟩,
         ⟨mkTrade 2 "AAPL" (3 / 10) 10000, .sell, -(1 / 5)⟩,
         ⟨mkTrade 1 "AAPL" (3 / 10) 10000, .hold, 0⟩] := by
  simp [processedTrades, logUnchangedThenRaised, tradeGroups, pushTrade, getKey, arraySort,
    objectKeys, ownEntries, isArrayIndex, processLoop, allBuys, compareWithPrev, prevMapOf,
    prevAllocOf, symbolKey, actionOf, mkTrade, parseInt]
  norm_num

/-- C18: when all records of the log share one transaction identifier, the classified trades
are the records of the log in input order, each with action `buy` and allocation change
equal to its own allocation. -/
theorem single_batch_all_buys (trades : List Trade) (i : Int)
    (hid : ∀ r ∈ trades, r.transaction_id = i) :
    processedTrades trades
      = trades.map (fun t => { trade := t, action := .buy, allocChange := t.allocation }) := by
  cases trades with
  | nil => rfl
  | cons first rest =>
    have hmem : ∀ j, j ∈ sortedTxIds (first :: rest) ↔ j ∈ [i] := by
      intro j
      rw [mem_sortedTxIds, List.mem_singleton]
      constructor
      · rintro ⟨r, hr, hj⟩; rw [← hj]; exact hid r hr
      · intro hj; exact ⟨first, List.mem_cons_self _ _, by rw [hj]; exact hid _ (by simp)⟩
    have hids : sortedTxIds (first :: rest) = [i] :=
      List.perm_singleton.1
        ((List.perm_ext_iff_of_nodup (sortedTxIds_nodup _) (List.nodup_singleton i)).2 hmem)
    have hbatch : batchOf (first :: rest) i = first :: rest := by
      unfold batchOf
      rw [List.filter_eq_self]
      intro a ha
      exact decide_eq_true (hid a ha)
    rw [processedTrades_eq, hids]
    simp only [processLoop, List.nil_append]
    rw [getD_getKey_tradeGroups, hbatch]
    rfl

/-- C18 at a concrete input, scenario A: one record AAPL with allocation 0.5 gives one
classified trade, a `buy` with allocation change 0.5. -/
theorem single_batch_all_buys_witness :
    processedTrades logScenarioA = [⟨mkTrade 1 "AAPL" (1 / 2) 10000, .buy, 1 / 2⟩] :=
  (single_batch_all_buys logScenarioA 1 (by simp [logScenarioA, mkTrade])).trans
    (by simp [logScenarioA, mkTrade])

/-- C19: the classifier emits one classified trade per record of the log: the output has the
length of the log, it is empty on the empty log, the records behind it are a permutation of
the log, and a comparison emits exactly the records of the current batch, whatever symbols
the compared batch holds. -/
theorem classifier_one_per_record (trades : List Trade) :
    (processedTrades trades).length = trades.length
      ∧ processedTrades [] = []
      ∧ ((processedTrades trades).map (fun p => p.trade)).Perm trades
      ∧ (∀ prevTx currentTx : List Trade,
          (compareWithPrev prevTx currentTx).map (fun p => p.trade) = currentTx) := by
  refine ⟨?_, rfl, processedTrades_trades_perm trades, compareWithPrev_trades⟩
  have h := (processedTrades_trades_perm trades).length_eq
  rwa [List.length_map] at h

/-- C20 (counterexample): a record of the latest batch with one share and no `current_price`
key gives a position whose value is NaN, not 0, and whose price is absent, not null. -/
theorem position_absent_price_not_zero :
    currentPositions [tradeNoPrice]
        = [⟨some "AAPL", .num 1, .undefined, 100, .nan, "neutral"⟩]
      ∧ JsNum.nan ≠ JsNum.fin 0 ∧ JsVal.undefined ≠ JsVal.null := by
  refine ⟨?_, by simp, by simp⟩
  simp [currentPositions, tradeNoPrice, mkTrade, mathMax, parseInt, gtZero, toPosition,
    toNumber, JsNum.mul, sentimentOrNeutral]

/-- C20 (amended): a record of the latest batch with shares greater than 0 gives a position
of the list; when its price is `null` the position has value 0 and price `null`, and when
its price is absent the position has value NaN and an absent price. -/
theorem position_without_price (trades : List Trade) (t : Trade) (s : ℚ)
    (ht : t ∈ trades) (hmax : ∀ r ∈ trades, r.transaction_id ≤ t.transaction_id)
    (hshares : t.shares_held = .num s) (hs : s > 0) :
    toPosition t ∈ currentPositions trades
      ∧ (t.current_price = .null →
          (toPosition t).value = .fin 0 ∧ (toPosition t).currentPrice = .null)
      ∧ (t.current_price = .undefined →
          (toPosition t).value = .nan ∧ (toPosition t).currentPrice = .undefined) := by
  refine ⟨?_, ?_, ?_⟩
  · rw [currentPositions_eq_filter]
    apply List.mem_map_of_mem
    rw [List.mem_filter]
    refine ⟨ht, ?_⟩
    rw [Bool.and_eq_true]
    exact ⟨decide_eq_true hmax, by rw [hshares]; simpa [gtZero] using hs⟩
  · intro hprice
    simp [toPosition, hshares, hprice, toNumber, JsNum.mul]
  · intro hprice
    simp [toPosition, hshares, hprice, toNumber, JsNum.mul]

/-- C20 (amended) at a concrete input: one record with one share and a `null` price. -/
theorem position_without_price_witness :
    toPosition tradeNullPrice ∈ currentPositions [tradeNullPrice]
      ∧ (toPosition tradeNullPrice).value = .fin 0
      ∧ (toPosition tradeNullPrice).currentPrice = .null :=
  have h := position_without_price [tradeNullPrice] tradeNullPrice 1 (by simp)
    (by simp) rfl (by norm_num)
  ⟨h.1, h.2.1 rfl⟩

/-- C21: for every state and every error payload, `SET_ERROR` leaves the portfolio, the
positions, the record log and the portfolio history unchanged, sets `error` to the payload
and sets `loading` to false; the connection flag is unchanged too. -/
theorem setError_keeps_views (state : State) (payload : Option String) :
    ∃ s, tradingReducer state (SET_ERROR payload) = .ok s
      ∧ s.portfolio = state.portfolio ∧ s.positions = state.positions
      ∧ s.trades = state.trades ∧ s.portfolioHistory = state.portfolioHistory
      ∧ s.error = payload ∧ s.loading = false ∧ s.connected = state.connected :=
  ⟨_, rfl, rfl, rfl, rfl, rfl, rfl, rfl, rfl⟩

/-- C22 (counterexample): an `UPDATE_REAL_TIME` with a `null` payload does not return the
state: reading `trades` from the payload throws. -/
theorem updateRealTime_null_throws :
    tradingReducer initialState (UPDATE_REAL_TIME .null) ≠ .ok initialState := by
  simp [tradingReducer]

/-- C22 (amended): for every state, an `UPDATE_REAL_TIME` whose payload is an object with no
trades field returns the state unchanged and raises no error; with a `null` or `undefined`
payload the reducer returns no state and raises a `TypeError`. -/
theorem updateRealTime_malformed (state : State) :
    tradingReducer state (UPDATE_REAL_TIME (.obj none)) = .ok state
      ∧ tradingReducer state (UPDATE_REAL_TIME .null) = .error "TypeError"
      ∧ tradingReducer state (UPDATE_REAL_TIME .undefined) = .error "TypeError" :=
  ⟨rfl, rfl, rfl⟩

/-- C28: for every state and every list of records, an `UPDATE_REAL_TIME` whose payload
carries that list (non-empty in particular) returns the state with `trades` replaced by
exactly that list and with every other field unchanged. -/
theorem updateRealTime_replaces_log (state : State) (trades : List Trade) :
    ∃ s, tradingReducer state (UPDATE_REAL_TIME (.obj (some trades))) = .ok s
      ∧ s.trades = trades
      ∧ s.portfolio = state.portfolio ∧ s.positions = state.positions
      ∧ s.portfolioHistory = state.portfolioHistory ∧ s.loading = state.loading
      ∧ s.error = state.error ∧ s.connected = state.connected :=
  ⟨_, rfl, rfl, rfl, rfl, rfl, rfl, rfl, rfl⟩

/-- C23: running the summary derivation a second time, on the list as the first run left
it, returns the same summary, and leaves the list as it found it. -/
theorem portfolioSummary_twice (trades : List Trade) :
    (portfolioSummary (portfolioSummary trades).2).1 = (portfolioSummary trades).1
      ∧ (portfolioSummary (portfolioSummary trades).2).2 = (portfolioSummary trades).2 := by
  cases trades with
  | nil => exact ⟨rfl, rfl⟩
  | cons f r =>
    have h2 : (portfolioSummary (f :: r)).2 = sortedTrades (f :: r) := rfl
    rw [h2]
    obtain ⟨a, r', hs⟩ : ∃ a r', sortedTrades (f :: r) = a :: r' := by
      cases h : sortedTrades (f :: r) with
      | nil =>
        have hlen := (sortedTrades_perm (f :: r)).length_eq
        rw [h] at hlen
        simp at hlen
      | cons a r' => exact ⟨a, r', rfl⟩
    have hl : latestTx a r' = latestTx f r :=
      latestTx_eq_of_batchOf a f r' r
        (by intro i; rw [← hs]; exact batchOf_sortedTrades _ i)
    have hi : sortedTrades (a :: r') = sortedTrades (f :: r) := by
      rw [← hs]; exact sortedTrades_idem _
    rw [hs]
    simp only [portfolioSummary]
    rw [hl, hi]
    exact ⟨rfl, hs⟩

/-- C26: on a non-empty log the history series has a last point, and its value and cash
are the summary's total value and cash, with no assumption on the records of a batch. -/
theorem summary_agrees_with_last_point (trades : List Trade) (hne : trades ≠ []) :
    ∃ p, (portfolioHistory trades).getLast? = some p
      ∧ p.value = (portfolioSummary trades).1.totalValue
      ∧ p.cash = (portfolioSummary trades).1.cash := by
  cases trades with
  | nil => exact absurd rfl hne
  | cons f r =>
    have hfmem : f.transaction_id ∈
        (sortedHistoryGroups (f :: r)).map (fun g => g.transaction_id) :=
      (mem_sortedHistoryGroups_ids _ _).2 ⟨f, List.mem_cons_self _ _, rfl⟩
    cases hlast : (sortedHistoryGroups (f :: r)).getLast? with
    | none =>
      rw [List.getLast?_eq_none_iff] at hlast
      rw [hlast] at hfmem
      simp at hfmem
    | some g =>
      obtain ⟨ys, hys⟩ := List.getLast?_eq_some_iff.1 hlast
      have hg : g ∈ sortedHistoryGroups (f :: r) := by rw [hys]; simp
      have hlt := sortedHistoryGroups_ids_lt (f :: r)
      rw [hys, List.map_append, List.pairwise_append] at hlt
      have hmaxg : ∀ i ∈ (sortedHistoryGroups (f :: r)).map (fun g => g.transaction_id),
          i ≤ g.transaction_id := by
        intro i hi
        rw [hys, List.map_append, List.mem_append] at hi
        rcases hi with hi | hi
        · exact le_of_lt (hlt.2.2 i hi g.transaction_id (by simp))
        · simp at hi; rw [hi]
      have hgid : g.transaction_id = (latestTx f r).transaction_id := by
        have h1 := hmaxg _ ((mem_sortedHistoryGroups_ids _ _).2
          ⟨latestTx f r, latestTx_mem f r, rfl⟩)
        obtain ⟨x, hx, hxid⟩ := (mem_sortedHistoryGroups_ids _ _).1
          (List.mem_map.2 ⟨g, hg, rfl⟩)
        have h2 := latestTx_max f r x hx
        omega
      obtain ⟨r0, hr0, hpoint⟩ := sortedHistoryGroups_first (f :: r) g hg
      rw [hgid, latestTx_find] at hr0
      have hr0eq : r0 = latestTx f r := (Option.some.inj hr0).symm
      refine ⟨toHistoryPoint g, ?_, ?_, ?_⟩
      · unfold portfolioHistory
        rw [List.getLast?_map, hlast]
        rfl
      · rw [hpoint, hr0eq]; rfl
      · rw [hpoint, hr0eq]; rfl

/-- C26 at a concrete input: the log of transaction 1 followed by transaction 2. -/
theorem summary_agrees_with_last_point_witness :
    ∃ p, (portfolioHistory logAscending).getLast? = some p
      ∧ p.value = (portfolioSummary logAscending).1.totalValue
      ∧ p.cash = (portfolioSummary logAscending).1.cash :=
  summary_agrees_with_last_point logAscending (by simp [logAscending])

/-- C25: the classifier runs over the identifiers of the log in strictly descending order,
the batch of the first one being all buys and each later batch being compared with the batch
processed just before it. So every record of the highest-identifier batch is a `buy` with
its own allocation as change, and every record of another batch is labelled from its change,
which is its allocation minus the value read for its symbol in the batch of the next-higher
identifier `j`. For a record with a symbol `s` (other than "undefined", the key a missing
symbol is read as) that value is 0 when no record of batch `j` has the symbol `s`, and is
the allocation of the last record of batch `j` with the symbol `s` otherwise. -/
theorem classifier_descending_order (trades : List Trade) :
    (∃ ids : List Int, ids.Pairwise (fun i j => j < i)
        ∧ (∀ i : Int, i ∈ ids ↔ ∃ r ∈ trades, r.transaction_id = i)
        ∧ processedTrades trades = classifyInOrder (batchOf trades) ids)
      ∧ (∀ p ∈ processedTrades trades,
          (∀ r ∈ trades, r.transaction_id ≤ p.trade.transaction_id) →
          p.action = .buy ∧ p.allocChange = p.trade.allocation)
      ∧ (∀ p ∈ processedTrades trades, ∀ j : Int,
          (∃ r ∈ trades, r.transaction_id = j) → p.trade.transaction_id < j →
          (∀ r ∈ trades, p.trade.transaction_id < r.transaction_id →
            j ≤ r.transaction_id) →
          p.allocChange
              = p.trade.allocation - lastAllocOf (batchOf trades j) p.trade.symbol
            ∧ p.action = actionOf p.allocChange)
      ∧ ((∀ s : String, symbolKey (some s) = s) ∧ symbolKey none = "undefined")
      ∧ (∀ p ∈ processedTrades trades, ∀ (j : Int) (s : String),
          (∃ r ∈ trades, r.transaction_id = j) → p.trade.transaction_id < j →
          (∀ r ∈ trades, p.trade.transaction_id < r.transaction_id →
            j ≤ r.transaction_id) →
          p.trade.symbol = some s → s ≠ "undefined" →
          ((∀ r ∈ trades, r.transaction_id = j → r.symbol ≠ some s) →
              p.allocChange = p.trade.allocation - 0)
            ∧ (∀ (a b : List Trade) (r : Trade),
                trades.filter (fun t => decide (t.transaction_id = j)) = a ++ r :: b →
                r.symbol = some s → (∀ x ∈ b, x.symbol ≠ some s) →
                p.allocChange = p.trade.allocation - r.allocation)) :=
  ⟨⟨sortedTxIds trades, sortedTxIds_gt trades, mem_sortedTxIds trades,
      processedTrades_eq_classifyInOrder trades⟩,
    fun p hp hmax => processedTrades_highest trades p hp hmax,
    fun p hp j hj hlt hnext => processedTrades_lower trades p hp j hj hlt hnext,
    ⟨fun _ => rfl, rfl⟩,
    fun p hp j s hj hlt hnext hsym hs =>
      processedTrades_lower_symbol trades p hp j s hj hlt hnext hsym hs⟩

/-- C25 at a concrete input: transaction 2 holds AAPL at 0.3 then BTC at 0.2, transaction 1
holds AAPL at 0.1 and ETH at 0.4. The record of AAPL in transaction 1 is classified with
change −0.2 = 0.1 − 0.3, compared with AAPL of transaction 2 and not with BTC, its last
record; the record of ETH, a symbol transaction 2 lacks, has change 0.4 − 0. -/
theorem classifier_descending_order_witness :
    (⟨mkTrade 1 "AAPL" (1 / 10) 10000, .sell, -(1 / 5)⟩ : ProcessedTrade)
        ∈ processedTrades logTwoSymbols
      ∧ (-(1 / 5) : ℚ) = 1 / 10 - 3 / 10
      ∧ (⟨mkTrade 1 "ETH" (2 / 5) 10000, .buy, 2 / 5⟩ : ProcessedTrade)
        ∈ processedTrades logTwoSymbols
      ∧ (2 / 5 : ℚ) = 2 / 5 - 0 :=
  have h1 : (⟨mkTrade 1 "AAPL" (1 / 10) 10000, .sell, -(1 / 5)⟩ : ProcessedTrade)
      ∈ processedTrades logTwoSymbols := by
    rw [processedTrades_logTwoSymbols]; simp
  have h2 : (⟨mkTrade 1 "ETH" (2 / 5) 10000, .buy, 2 / 5⟩ : ProcessedTrade)
      ∈ processedTrades logTwoSymbols := by
    rw [processedTrades_logTwoSymbols]; simp
  have hj : ∃ r ∈ logTwoSymbols, r.transaction_id = 2 :=
    ⟨mkTrade 2 "AAPL" (3 / 10) 11000, by simp [logTwoSymbols], rfl⟩
  ⟨h1,
    ((classifier_descending_order logTwoSymbols).2.2.2.2 _ h1 2 "AAPL" hj
      (by simp [mkTrade]) (by simp [logTwoSymbols, mkTrade]) rfl (by decide)).2
      [] [mkTrade 2 "BTC" (1 / 5) 11000] (mkTrade 2 "AAPL" (3 / 10) 11000)
      (by simp [logTwoSymbols, mkTrade]) rfl (by simp [mkTrade]),
    h2,
    ((classifier_descending_order logTwoSymbols).2.2.2.2 _ h2 2 "ETH" hj
      (by simp [mkTrade]) (by simp [logTwoSymbols, mkTrade]) rfl (by decide)).1
      (by simp [logTwoSymbols, mkTrade])⟩

/-- C29: the records behind the classifier's output, its `action` and `allocChange` left
out, are the log regrouped: for a strictly descending list of exactly the identifiers of the
log, the records of each identifier in input order, one identifier after the other. -/
theorem classifier_output_regrouped (trades : List Trade) :
    ∃ ids : List Int, ids.Pairwise (fun i j => j < i)
      ∧ (∀ i : Int, i ∈ ids ↔ ∃ r ∈ trades, r.transaction_id = i)
      ∧ (processedTrades trades).map (fun p => p.trade)
          = ids.flatMap (fun i => trades.filter (fun t => decide (t.transaction_id = i))) :=
  ⟨sortedTxIds trades, sortedTxIds_gt trades, mem_sortedTxIds trades,
    processedTrades_trades trades⟩

/-- C27: on the log as the summary's in-place sort leaves it, the records of each
transaction are those of the original log in the same order, and the history, the
positions and the classification are the same as on the original log. -/
theorem derivations_after_summary_sort (trades : List Trade) :
    (∀ i : Int, (portfolioSummary trades).2.filter (fun t => decide (t.transaction_id = i))
        = trades.filter (fun t => decide (t.transaction_id = i)))
      ∧ portfolioHistory (portfolioSummary trades).2 = portfolioHistory trades
      ∧ currentPositions (portfolioSummary trades).2 = currentPositions trades
      ∧ processedTrades (portfolioSummary trades).2 = processedTrades trades := by
  have hstate : (portfolioSummary trades).2 = sortedTrades trades := by
    cases trades with
    | nil => rfl
    | cons first rest => rfl
  rw [hstate]
  have hb : ∀ i, batchOf (sortedTrades trades) i = batchOf trades i :=
    batchOf_sortedTrades trades
  exact ⟨hb, portfolioHistory_eq_of_batchOf_eq _ _ hb,
    currentPositions_eq_of_batchOf_eq _ _ hb, processedTrades_eq_of_batchOf_eq _ _ hb⟩

/-- C24 (counterexample): in a batch of a record of AAPL and a record with no symbol, the
record with no symbol is not dropped: it gives a position, with no symbol, and a classified
trade; and the table of the Trading page, rendering that trade, throws. -/
theorem missing_symbol_kept :
    currentPositions logWithNoSymbol
        = [toPosition (mkTrade 1 "AAPL" (1 / 2) 10000), toPosition tradeNoSymbol]
      ∧ (toPosition tradeNoSymbol).symbol = none
      ∧ (processedTrades logWithNoSymbol).map (fun p => p.trade)
          = [mkTrade 1 "AAPL" (1 / 2) 10000, tradeNoSymbol]
      ∧ tableSymbolIcons none logWithNoSymbol = .error "TypeError" := by
  have hproc : processedTrades logWithNoSymbol
      = [⟨mkTrade 1 "AAPL" (1 / 2) 10000, .buy, 1 / 2⟩, ⟨tradeNoSymbol, .buy, 1 / 2⟩] := by
    simp [processedTrades, logWithNoSymbol, tradeNoSymbol, tradeGroups, pushTrade, getKey,
      arraySort, objectKeys, ownEntries, isArrayIndex, processLoop, allBuys, mkTrade, parseInt]
  refine ⟨?_, rfl, ?_, ?_⟩
  · simp [currentPositions, logWithNoSymbol, tradeNoSymbol, mkTrade, mathMax, parseInt, gtZero]
  · rw [hproc]; rfl
  · unfold tableSymbolIcons
    rw [filteredTrades_all, hproc]
    exact renderIcons_missing_symbol _ ⟨tradeNoSymbol, .buy, 1 / 2⟩ (by simp) rfl

/-- C24 (amended): a record `t` with no symbol in the highest-identifier batch, beside
records that all have a symbol other than "undefined", is not dropped. It adds one
classified trade and, when its shares are greater than 0, one position, which has no
symbol; the other classified trades and positions are those of the log without it, in the
same order; and the table of the Trading page, under the filter `all`, throws a `TypeError`
when it renders the trade of `t`. -/
theorem missing_symbol_not_dropped (pre post : List Trade) (t : Trade)
    (hsym : t.symbol = none)
    (hmax : ∀ r ∈ pre ++ t :: post, r.transaction_id ≤ t.transaction_id)
    (hother : ∃ r ∈ pre ++ post, r.transaction_id = t.transaction_id)
    (hvalid : ∀ r ∈ pre ++ post, symbolKey r.symbol ≠ "undefined") :
    (∃ X Y p, processedTrades (pre ++ post) = X ++ Y ∧ p.trade = t
        ∧ processedTrades (pre ++ t :: post) = X ++ p :: Y)
      ∧ (∃ A B, currentPositions (pre ++ post) = A ++ B
        ∧ currentPositions (pre ++ t :: post)
            = A ++ (if gtZero t.shares_held = true then [toPosition t] else []) ++ B)
      ∧ (toPosition t).symbol = none
      ∧ tableSymbolIcons none (pre ++ t :: post) = .error "TypeError" := by
  have hkeys : ∀ r ∈ pre ++ post, symbolKey t.symbol ≠ symbolKey r.symbol := by
    intro r hr
    rw [hsym]
    exact fun h => hvalid r hr h.symm
  have hproc := processedTrades_insert_some pre post t hmax hother hkeys
  refine ⟨hproc, currentPositions_insert_latest pre post t hmax hother, hsym, ?_⟩
  obtain ⟨X, Y, p, _, hpt, hfull⟩ := hproc
  unfold tableSymbolIcons
  rw [filteredTrades_all, hfull]
  exact renderIcons_missing_symbol _ p (by simp) (by rw [hpt]; exact hsym)

/-- C24 (amended) at a concrete input: a record of AAPL, then the record with no symbol. -/
theorem missing_symbol_not_dropped_witness :
    (∃ X Y p, processedTrades ([mkTrade 1 "AAPL" (1 / 2) 10000] ++ []) = X ++ Y
        ∧ p.trade = tradeNoSymbol
        ∧ processedTrades ([mkTrade 1 "AAPL" (1 / 2) 10000] ++ tradeNoSymbol :: [])
            = X ++ p :: Y)
      ∧ (∃ A B, currentPositions ([mkTrade 1 "AAPL" (1 / 2) 10000] ++ []) = A ++ B
        ∧ currentPositions ([mkTrade 1 "AAPL" (1 / 2) 10000] ++ tradeNoSymbol :: [])
            = A ++ (if gtZero tradeNoSymbol.shares_held = true
                then [toPosition tradeNoSymbol] else []) ++ B)
      ∧ (toPosition tradeNoSymbol).symbol = none
      ∧ tableSymbolIcons none ([mkTrade 1 "AAPL" (1 / 2) 10000] ++ tradeNoSymbol :: [])
          = .error "TypeError" :=
  missing_symbol_not_dropped [mkTrade 1 "AAPL" (1 / 2) 10000] [] tradeNoSymbol rfl
    (by simp [tradeNoSymbol, mkTrade])
    ⟨mkTrade 1 "AAPL" (1 / 2) 10000, by simp, rfl⟩
    (by simp [mkTrade, symbolKey])

/-- C30 (the code departs from the claim): on the log of transaction 2 followed by
transaction 1, `latest` holds the record of transaction 1, the identifier of the last
record of the log, not the batch of the highest identifier 2. `lastTrades` holds the record
of transaction 2 when identifiers are strings, and nothing when they are numbers. -/
theorem legacy_latest_follows_last_record (amount : Trade → ℚ) :
    latest logDescending = some [mkTrade 1 "AAPL" (1 / 10) 10000]
      ∧ lastTrades .string amount logDescending = some [mkTrade 2 "AAPL" (3 / 10) 11000]
      ∧ lastTrades .number amount logDescending = some [] := by
  refine ⟨?_, ?_, ?_⟩
  · simp [latest, logDescending, mkTrade]
  · simp [lastTrades, legacyIds, addToTotals, logDescending, getKey, arraySort, objectKeys,
      ownEntries, isArrayIndex, idIsKey, mkTrade, parseInt]
  · simp [lastTrades, legacyIds, addToTotals, logDescending, getKey, arraySort, objectKeys,
      ownEntries, isArrayIndex, idIsKey, mkTrade, parseInt]

end TradingDashboard
